import Mathlib

/-!
A shallow embedding of the command execution engine of `wish.c`.

The embedding follows `src/wish.c` function by function.

* A C string buffer is a list of characters (`Mem`); a pointer into it is an
  offset; bytes past the end of the list read as the terminator `NUL`.
  Offset `0` of the line buffer is the address `getline` obtained from
  `malloc`, the only pointer of that block `free` accepts.
* `strtok` is modelled with its saved pointer made explicit, including the
  write of the terminator over the delimiter that ends a token.
* System calls whose result the code branches on (`chdir`, `write`, `open`,
  `dup2`, `access`, `execv`, `pipe`, `fork`) are answered by an environment
  `Env`. `malloc`, `strdup` and `realloc` are taken to succeed.
* Behaviour the C standard leaves undefined (a `NULL` passed to `strcmp`,
  `free` of a pointer into the middle of a block, a write past `args[511]`)
  is the explicit outcome `Exit.undefined`.
-/

namespace Wish

/-- The characters of a C string, terminator excluded. -/
abbrev Str := List Char

/-- A character buffer; a pointer into it is an offset. -/
abbrev Mem := List Char

/-- The string terminator. -/
def NUL : Char := Char.ofNat 0

/-- The byte `m[p]`; past the end of the list the terminator is read. -/
def get (m : Mem) (p : Nat) : Char := m.getD p NUL

/-- The C string that starts at `p`. -/
def cstr (m : Mem) (p : Nat) : Str := (m.drop p).takeWhile (fun c => c != NUL)

/-- The libc `strlen`. -/
def strlen (m : Mem) (p : Nat) : Nat := (cstr m p).length

/-- The libc `isspace` in the C locale. -/
def isspace (c : Char) : Bool :=
  c == ' ' || c == '\t' || c == '\n' || c == Char.ofNat 11 || c == Char.ofNat 12 || c == '\r'

/-- The libc `strspn(m + p, d)` for a one-character delimiter set. -/
def strspn (m : Mem) (p : Nat) (d : Char) : Nat :=
  ((m.drop p).takeWhile (fun c => c == d)).length

/-- The libc `strcspn(m + p, d)` for a one-character delimiter set. -/
def strcspn (m : Mem) (p : Nat) (d : Char) : Nat :=
  ((m.drop p).takeWhile (fun c => c != d && c != NUL)).length

/-- What one call of `strtok` leaves behind: the token returned (`none` is
`NULL`), the buffer, and the saved pointer for the next `strtok(NULL, ..)`. -/
structure Tok where
  token : Option Nat
  mem : Mem
  save : Nat
deriving DecidableEq, Repr

/-- The libc `strtok` from position `s` (the argument, or the saved pointer
when the argument is `NULL`) with the one-character delimiter set `d`:
skip delimiters, return `NULL` at the terminator, otherwise scan to the end
of the token and overwrite the delimiter found there with `NUL`. -/
def strtok (m : Mem) (s : Nat) (d : Char) : Tok :=
  let b := s + strspn m s d
  if get m b == NUL then ⟨none, m, b⟩
  else
    let e := b + strcspn m b d
    if get m e == NUL then ⟨some b, m, e⟩
    else ⟨some b, m.set e NUL, e + 1⟩

/-- The `while (token != NULL)` loop of `modify_path`: token number
`path_counter` overwrites the entry at that index or, past `num_path`, is
appended after the `realloc`. Returns the table, `path_counter` and the
buffer. The first argument bounds the iterations by the buffer length. -/
def path_loop : Nat → Mem → Option Nat → Nat → List Str → Nat → List Str × Nat × Mem
  | 0, m, _, _, shell_path, path_counter => (shell_path, path_counter, m)
  | _ + 1, m, none, _, shell_path, path_counter => (shell_path, path_counter, m)
  | fuel + 1, m, some token, save, shell_path, path_counter =>
    let shell_path1 :=
      if path_counter < shell_path.length then shell_path.set path_counter (cstr m token)
      else shell_path ++ [cstr m token]
    let t := strtok m save ' '
    path_loop fuel t.mem t.token t.save shell_path1 (path_counter + 1)

/-- The function `modify_path(buffer, &shell_path, &num_path)`. The table is
`none` for the `NULL` pointer and otherwise the list of its `num_path`
entries. Returns the buffer as `strtok` left it and the new table; `none`
is the dereference of a `NULL` table in the second branch. -/
def modify_path (m : Mem) (buffer : Nat) (shell_path : Option (List Str)) :
    Option (Mem × List Str) :=
  let t0 := strtok m buffer ' '
  let t := if t0.token.isSome then strtok t0.mem t0.save ' ' else t0
  match t.token with
  | none =>
    match shell_path with
    | none => some (t.mem, [cstr t.mem buffer])
    | some l => some (t.mem, (([] : Str) :: l.drop 1).take 1)
  | some token =>
    if get t.mem token == NUL || get t.mem token == '\n' then
      match shell_path with
      | none => none
      | some l => some (t.mem, (([] : Str) :: l.drop 1).take 1)
    else
      let r := path_loop (m.length + 1) t.mem (some token) t.save (shell_path.getD []) 0
      some (r.2.2, r.1.take r.2.1)

/-- The libc `strchr(m + p, c)` for a character `c` other than `NUL`. -/
def strchr (m : Mem) (p : Nat) (c : Char) : Option Nat :=
  if c ∈ cstr m p then some (p + ((cstr m p).takeWhile (fun x => x != c)).length) else none

/-- The bytes `m[p], ..., m[p + n - 1]`. -/
def bytes (m : Mem) (p n : Nat) : List Char := (List.range n).map (fun i => get m (p + i))

/-- The libc `memmove(m + dst, m + src, n)`. -/
def memmove (m : Mem) (dst src n : Nat) : Mem :=
  m.take dst ++ bytes m src n ++ m.drop (dst + n)

/-- The loop `while (end >= str && isspace(*end)) *end-- = 0` of
`remove_lead_and_trailing_whitespaces`; the first argument is
`end - str + 1`, the number of characters not yet looked at. -/
def trim_end (m : Mem) (str : Nat) : Nat → Mem
  | 0 => m
  | n + 1 => if isspace (get m (str + n)) then trim_end (m.set (str + n) NUL) str n else m

/-- The function `remove_lead_and_trailing_whitespaces(&str)`: the string at
`str` is shifted left over its leading whitespace and its trailing whitespace
is overwritten with terminators, all in place. -/
def remove_lead_and_trailing_whitespaces (m : Mem) (str : Nat) : Mem :=
  if get m str == NUL then m
  else
    let k := ((m.drop str).takeWhile (fun c => c != NUL && isspace c)).length
    let m1 := if k != 0 then memmove m str (str + k) (strlen m (str + k) + 1) else m
    trim_end m1 str (strlen m1 str)

/-- The answers of the system calls the worker branches on. -/
structure Env where
  /-- Whether `chdir(dir)` returns 0. -/
  chdir : Str → Bool
  /-- Whether `write` of these bytes to the control pipe does not return -1. -/
  write : List Char → Bool
  /-- Whether `open(file, O_WRONLY | O_CREAT | O_TRUNC, 0644)` succeeds. -/
  creat : Str → Bool
  /-- Whether `dup2(fd, STDOUT_FILENO)` succeeds. -/
  dup2 : Bool
  /-- Whether `access(path, X_OK)` returns 0. -/
  access : Str → Bool
  /-- Whether `execv(path, args)` takes effect (does not return). -/
  execv : Str → List Str → Bool
  /-- Whether `pipe(pipes[count])` succeeds. -/
  pipe : Nat → Bool
  /-- Whether the `fork()` for command number `count` succeeds. -/
  fork : Nat → Bool

/-- How a function run in the worker ends. -/
inductive Exit
  /-- Control returns to the caller. -/
  | returned
  /-- The call `_exit(n)`. -/
  | status (n : Nat)
  /-- The call `execv(path, args)` replaced the process image. -/
  | execed (path : Str) (argv : List Str)
  /-- Behaviour undefined in C is reached. -/
  | undefined
deriving DecidableEq, Repr

/-- What a worker does that is visible outside it. -/
structure Worker where
  /-- How many times `ERROR_MESSAGE` is written to the diagnostic stream. -/
  errors : Nat
  /-- The bytes written to the control pipe. -/
  pipe : List Char
  /-- The file given to `open` for the redirection, when the call is made. -/
  opened : Option Str
  /-- The argument vector `args`, once `run_extern_cmd` has built it. -/
  argv : Option (List Str)
  /-- How the worker ends. -/
  exit : Exit
deriving DecidableEq, Repr

/-- The tag byte of a `cd` message on the control pipe. -/
def MESSAGE_TYPE_CD : Char := Char.ofNat 1

/-- The tag byte of a `path` message on the control pipe. -/
def MESSAGE_TYPE_PATH : Char := Char.ofNat 2

/-- The exit status by which a worker asks the shell to exit. -/
def CHILD_EXIT_REQUEST : Nat := 20

/-- The exit status by which a worker reports a system error. -/
def CHILD_SYSTEM_ERROR : Nat := 21

/-- The size of the arrays `pipes` and `children` of `cmd_parse_processes`. -/
def MAX_PARALLEL_COMMANDS : Nat := 100

/-- The worker's `deallocate_string(buffer)` followed by `_exit(n)`: the
`free` is defined only for the address of the heap block, offset 0. -/
def free_exit (buffer : Nat) (n : Nat) : Exit :=
  if buffer = 0 then Exit.status n else Exit.undefined

/-- The worker's `deallocate_string(buffer)` followed by
`shell_system_error(ERROR_MESSAGE)`. -/
def system_error_exit (w : Worker) (buffer : Nat) : Worker :=
  if buffer = 0 then { w with errors := w.errors + 1, exit := Exit.status CHILD_SYSTEM_ERROR }
  else { w with exit := Exit.undefined }

/-- The function `check_builtin_cmd(buffer)`; `none` is `strcmp` applied to
`NULL`. -/
def check_builtin_cmd (buffer : Option Str) : Option Bool :=
  match buffer with
  | none => none
  | some s => some (s == "exit".toList || s == "cd".toList || s == "path".toList)

/-- The branch of `run_builtin_cmd` for `cd` with exactly one argument
`token`: the worker changes directory and, when that succeeds, writes the tag
and then the `strlen(token) + 1` bytes of the argument to the control pipe. -/
def cd_one (env : Env) (buffer : Nat) (token : Str) : Worker :=
  if !env.chdir token then ⟨1, [], none, none, Exit.returned⟩
  else if !env.write [MESSAGE_TYPE_CD] then
    system_error_exit ⟨0, [], none, none, Exit.returned⟩ buffer
  else if !env.write (token ++ [NUL]) then
    system_error_exit ⟨0, [MESSAGE_TYPE_CD], none, none, Exit.returned⟩ buffer
  else ⟨0, MESSAGE_TYPE_CD :: (token ++ [NUL]), none, none, Exit.returned⟩

/-- The branch of `run_builtin_cmd` for `cd`, by the argument tokens that
follow `cd`: a user error unless there is exactly one. -/
def cd_args (env : Env) (buffer : Nat) : List Str → Worker
  | [token] => cd_one env buffer token
  | _ => ⟨1, [], none, none, Exit.returned⟩

/-- The function `run_builtin_cmd(&buffer, child_to_parent, ..)` in the
worker whose command group is the C string at `buffer`. -/
def run_builtin_cmd (env : Env) (m : Mem) (buffer : Nat) : Worker :=
  let buffer_copy : Mem := cstr m buffer ++ [NUL]
  let t0 := strtok buffer_copy 0 ' '
  match t0.token with
  | none => ⟨0, [], none, none, Exit.undefined⟩
  | some token =>
    if cstr t0.mem token == "exit".toList && cstr m buffer == cstr t0.mem token then
      ⟨0, [], none, none, free_exit buffer CHILD_EXIT_REQUEST⟩
    else if cstr t0.mem token == "cd".toList then
      let t1 := strtok t0.mem t0.save ' '
      match t1.token with
      | none => ⟨1, [], none, none, Exit.returned⟩
      | some arg =>
        let t2 := strtok t1.mem t1.save ' '
        if t2.token.isNone then cd_one env buffer (cstr t2.mem arg)
        else ⟨1, [], none, none, Exit.returned⟩
    else if cstr t0.mem token == "path".toList then
      if !env.write [MESSAGE_TYPE_PATH] then
        system_error_exit ⟨0, [], none, none, Exit.returned⟩ buffer
      else ⟨0, [MESSAGE_TYPE_PATH], none, none, Exit.returned⟩
    else ⟨1, [], none, none, Exit.returned⟩

/-- The loop `while (token) { args[i++] = token; token = strtok(NULL, " "); }`
of `run_extern_cmd`: the token pointers stored in `args`, and the buffer. -/
def args_loop : Nat → Mem → Option Nat → Nat → List Nat → List Nat × Mem
  | 0, m, _, _, args => (args, m)
  | _ + 1, m, none, _, args => (args, m)
  | fuel + 1, m, some token, save, args =>
    let t := strtok m save ' '
    args_loop fuel t.mem t.token t.save (args ++ [token])

/-- The call `snprintf(executable_path, 512, "%s/%s", dir, arg0)`: at most
511 characters are stored. -/
def executable_path (dir arg0 : Str) : Str := (dir ++ '/' :: arg0).take 511

/-- The resolution loop of `run_extern_cmd` over the table entries with index
`i < num_path`: the `executable_path` at the `break`, or `none` when
`command_found` stays 0. -/
def resolve (access : Str → Bool) : List Str → Str → Option Str
  | [], _ => none
  | dir :: rest, arg0 =>
    if access (executable_path dir arg0) then some (executable_path dir arg0)
    else resolve access rest arg0

/-- The second half of `run_extern_cmd`, from `strtok(*buffer, " ")` on; `w`
holds what the redirection half did. -/
def launch (env : Env) (shell_path : List Str) (m : Mem) (buffer : Nat) (w : Worker) : Worker :=
  let t := strtok m buffer ' '
  let r := args_loop (m.length + 1) t.mem t.token t.save []
  if 512 ≤ r.1.length then { w with exit := Exit.undefined }
  else
    let args := r.1.map (cstr r.2)
    match args, shell_path with
    | [], _ :: _ => { w with argv := some args, exit := Exit.undefined }
    | [], [] => { w with argv := some args, errors := w.errors + 1, exit := free_exit buffer 0 }
    | arg0 :: _, _ =>
      match resolve env.access shell_path arg0 with
      | none => { w with argv := some args, errors := w.errors + 1, exit := free_exit buffer 0 }
      | some path =>
        if env.execv path args then { w with argv := some args, exit := Exit.execed path args }
        else system_error_exit { w with argv := some args } buffer

/-- The function `run_extern_cmd(&buffer, &shell_path, &num_path)` in the
worker whose command group is the C string at `buffer`. -/
def run_extern_cmd (env : Env) (shell_path : List Str) (m : Mem) (buffer : Nat) : Worker :=
  match strchr m buffer '>' with
  | none => launch env shell_path m buffer ⟨0, [], none, none, Exit.returned⟩
  | some redirect_char =>
    let m1 := m.set redirect_char NUL
    let filename := redirect_char + 1 +
      ((m1.drop (redirect_char + 1)).takeWhile (fun c => c != NUL && isspace c)).length
    if get m1 filename == NUL then ⟨1, [], none, none, free_exit buffer 0⟩
    else if (strchr m1 filename ' ').isSome then ⟨1, [], none, none, free_exit buffer 0⟩
    else
      let filename_final : Mem :=
        remove_lead_and_trailing_whitespaces (cstr m1 filename ++ [NUL]) 0
      let target := cstr filename_final 0
      if !env.creat target then system_error_exit ⟨0, [], some target, none, Exit.returned⟩ buffer
      else if !env.dup2 then system_error_exit ⟨0, [], some target, none, Exit.returned⟩ buffer
      else launch env shell_path m1 buffer ⟨0, [], some target, none, Exit.returned⟩

/-- The choice `cmd_process` makes in the worker. -/
inductive Dispatch
  | builtin
  | external
deriving DecidableEq, Repr

/-- The test `check_builtin_cmd(program_name)` of `cmd_process`, with
`program_name = strtok(buffer_copy, " ")` taken from a copy of the command
group; `none` is the `strcmp` on a `NULL` program name. -/
def dispatch (m : Mem) (buffer : Nat) : Option Dispatch :=
  let buffer_copy : Mem := cstr m buffer ++ [NUL]
  let t := strtok buffer_copy 0 ' '
  (check_builtin_cmd (t.token.map (cstr t.mem))).map
    (fun b => if b then Dispatch.builtin else Dispatch.external)

/-- The worker branch (`child == 0`) of `cmd_process(&buffer, ..)`. -/
def cmd_process_child (env : Env) (shell_path : Option (List Str)) (m : Mem) (buffer : Nat) :
    Worker :=
  match dispatch m buffer with
  | none => ⟨0, [], none, none, Exit.undefined⟩
  | some Dispatch.builtin =>
    let w := run_builtin_cmd env m buffer
    if w.exit = Exit.returned then { w with exit := free_exit buffer 0 } else w
  | some Dispatch.external => run_extern_cmd env (shell_path.getD []) m buffer

/-- The function `cmd_process(&buffer, &count, ..)` seen from the owning
process: `none` is `system_error(ERROR_MESSAGE)` after a failed `pipe` or
`fork`, otherwise the worker forked for command number `count`. -/
def cmd_process (env : Env) (shell_path : Option (List Str)) (m : Mem) (buffer : Nat)
    (count : Nat) : Option Worker :=
  if !env.pipe count then none
  else if !env.fork count then none
  else some (cmd_process_child env shell_path m buffer)

/-- What `waitpid` reports for a worker. -/
inductive WaitStatus
  /-- `WIFEXITED` holds and `WEXITSTATUS` is `code`. -/
  | exited (code : Nat)
  /-- `WIFEXITED` does not hold. -/
  | signaled
deriving DecidableEq, Repr

/-- The function `wait_and_check_child_exit_status` on the statuses of
`children[0 .. command_count - 1]`: `some n` is the call `exit(n)`, `none`
the return to the caller. -/
def wait_and_check_child_exit_status : List WaitStatus → Option Nat
  | [] => none
  | WaitStatus.exited code :: rest =>
    if code = CHILD_SYSTEM_ERROR then some 1
    else if code = CHILD_EXIT_REQUEST then some 0
    else wait_and_check_child_exit_status rest
  | WaitStatus.signaled :: rest => wait_and_check_child_exit_status rest

/-- The state the owning process keeps across the workers of one line. -/
structure Owner where
  /-- The line buffer `*buffer`. -/
  buffer : Mem
  /-- The Search-Path Table; `none` is the `NULL` pointer. -/
  shell_path : Option (List Str)
  /-- The arguments of the owner's `chdir` calls, oldest first. -/
  chdirs : List Str
deriving DecidableEq, Repr

/-- The function `check_child_message_and_close_pipes` on the bytes readable
from `pipes[0 .. command_count - 1][0]`; `none` is undefined behaviour (a
`new_dir` without terminator, or `modify_path` on a `NULL` table). -/
def check_child_message_and_close_pipes : List (List Char) → Owner → Option Owner
  | [], o => some o
  | [] :: rest, o => check_child_message_and_close_pipes rest o
  | (message_type :: payload) :: rest, o =>
    if message_type = MESSAGE_TYPE_CD then
      let new_dir := payload.take 512
      if NUL ∈ new_dir then
        check_child_message_and_close_pipes rest { o with chdirs := o.chdirs ++ [cstr new_dir 0] }
      else none
    else if message_type = MESSAGE_TYPE_PATH then
      match modify_path o.buffer 0 o.shell_path with
      | none => none
      | some (m, sp) =>
        check_child_message_and_close_pipes rest { o with buffer := m, shell_path := some sp }
    else check_child_message_and_close_pipes rest o

/-- How the launching loop of `cmd_parse_processes` ends. -/
inductive Launched (α : Type)
  /-- Every token was handed to `cmd_process`: what the calls gave, in
  order, and the buffer. -/
  | done (children : List α) (m : Mem)
  /-- A call of `cmd_process` ended the shell with `system_error`. -/
  | failed
  /-- A call of `cmd_process` was made with `command_count` past the end of
  `pipes` and `children`. -/
  | overrun
deriving DecidableEq, Repr

/-- The loop of `cmd_parse_processes`: each token of the `strtok` on `&` is
trimmed in place and handed to `cmd_process` together with `command_count`,
the number of commands launched before it; `fork1 m token count` stands for
that call, made with the buffer as it is then. `cap` is the size of `pipes`
and `children`. -/
def split_loop (fork1 : Mem → Nat → Nat → Option α) (cap : Nat) :
    Nat → Mem → Option Nat → Nat → List α → Launched α
  | 0, m, _, _, children => Launched.done children m
  | _ + 1, m, none, _, children => Launched.done children m
  | fuel + 1, m, some token, save, children =>
    let m1 := remove_lead_and_trailing_whitespaces m token
    if cap ≤ children.length then Launched.overrun
    else
      match fork1 m1 token children.length with
      | none => Launched.failed
      | some c =>
        let t := strtok m1 save '&'
        split_loop fork1 cap fuel t.mem t.token t.save (children ++ [c])

/-- The command groups `cmd_parse_processes` hands to `cmd_process` for the
line in buffer `m`, in launch order. -/
def command_groups (m : Mem) : Launched Str :=
  let t := strtok m 0 '&'
  split_loop (fun m1 token _ => some (cstr m1 token)) MAX_PARALLEL_COMMANDS (m.length + 1)
    t.mem t.token t.save []

/-- The termination status the owner sees for a worker: its `_exit` code,
what the program it became ends with, or what the undefined behaviour ends
in. -/
def wait_status (program : Str → List Str → WaitStatus) (crash : WaitStatus) : Exit → WaitStatus
  | Exit.status n => WaitStatus.exited (n % 256)
  | Exit.execed path argv => program path argv
  | Exit.returned => crash
  | Exit.undefined => crash

/-- What processing one line makes of the shell. -/
inductive Shell
  /-- The shell calls `exit(status)`. -/
  | exits (status : Nat)
  /-- The shell goes on to the next line. -/
  | continues (o : Owner)
  /-- Behaviour undefined in C is reached in the owning process. -/
  | undefined
deriving DecidableEq, Repr

/-- The two calls that end the processing of a line:
`wait_and_check_child_exit_status` and then
`check_child_message_and_close_pipes`. -/
def supervise (statuses : List WaitStatus) (pipes : List (List Char)) (o : Owner) : Shell :=
  match wait_and_check_child_exit_status statuses with
  | some n => Shell.exits n
  | none =>
    match check_child_message_and_close_pipes pipes o with
    | none => Shell.undefined
    | some o1 => Shell.continues o1

/-- The launching loop of `cmd_parse_processes` on the line in buffer `m`:
the workers forked, in launch order. -/
def launch_all (env : Env) (shell_path : Option (List Str)) (m : Mem) : Launched Worker :=
  let t := strtok m 0 '&'
  split_loop (cmd_process env shell_path) MAX_PARALLEL_COMMANDS (m.length + 1)
    t.mem t.token t.save []

/-- The function `cmd_parse_processes(&buffer, ..)`. -/
def cmd_parse_processes (env : Env) (program : Str → List Str → WaitStatus)
    (crash : WaitStatus) (o : Owner) : Shell :=
  match launch_all env o.shell_path o.buffer with
  | Launched.failed => Shell.exits 1
  | Launched.overrun => Shell.undefined
  | Launched.done children m =>
    supervise (children.map (fun w => wait_status program crash w.exit))
      (children.map (fun w => w.pipe)) { o with buffer := m }

/-- The single-command branch of `main`: one `cmd_process` with `count = 0`,
then the two supervising calls with `count = 1`. -/
def single_command (env : Env) (program : Str → List Str → WaitStatus)
    (crash : WaitStatus) (o : Owner) : Shell :=
  match cmd_process env o.shell_path o.buffer 0 0 with
  | none => Shell.exits 1
  | some w => supervise [wait_status program crash w.exit] [w.pipe] o

/-- One turn of the loop of `main` after `getline` filled the buffer. -/
def main_line (env : Env) (program : Str → List Str → WaitStatus)
    (crash : WaitStatus) (o : Owner) : Shell :=
  let m := remove_lead_and_trailing_whitespaces o.buffer 0
  if get m 0 != NUL && get m 0 != '\r' && get m 0 != '\n' then
    if '&' ∈ cstr m 0 then cmd_parse_processes env program crash { o with buffer := m }
    else single_command env program crash { o with buffer := m }
  else Shell.continues { o with buffer := m }

/-- What the launching loop handed on, when it ran to its end. -/
def Launched.list : Launched α → Option (List α)
  | Launched.done children _ => some children
  | Launched.failed => none
  | Launched.overrun => none

/-- The Search-Path Table the shell goes on with. -/
def Shell.table : Shell → Option (List Str)
  | Shell.continues o => o.shell_path
  | Shell.exits _ => none
  | Shell.undefined => none

/-- The buffer holding the C string `s`: its characters and the terminator. -/
def buf (s : String) : Mem := s.toList ++ [NUL]

/-- An environment for examples: the executable files are those listed, every
`chdir`, `write`, `open`, `dup2` and `execv` succeeds. -/
def env_with (executables : List String) : Env :=
  ⟨fun _ => true, fun _ => true, fun _ => true, true,
   fun p => executables.any (fun e => e.toList == p), fun _ _ => true, fun _ => true,
   fun _ => true⟩

/-- Every program run in the examples exits with status 0. -/
def exit0 : Str → List Str → WaitStatus := fun _ _ => WaitStatus.exited 0

/-- An environment for examples in which every `write` to the control pipe
fails and every other call succeeds. -/
def env_write_fails : Env :=
  ⟨fun _ => true, fun _ => false, fun _ => true, true, fun _ => true, fun _ _ => true,
   fun _ => true, fun _ => true⟩

/-- A directory name of 510 characters, for examples. -/
def long_dir : Str := '/' :: List.replicate 509 'd'

/-- A line of `n + 1` command groups `a` with `n` separators `&` between
them and no newline, for examples. -/
def groups_line : Nat → Str
  | 0 => ['a']
  | n + 1 => 'a' :: '&' :: groups_line n

/-- Specification side: the pieces of `s` between the separators. A string
with `n` separator characters has `n + 1` pieces, empty ones included. -/
def split_at (sep : Char → Bool) : Str → List Str
  | [] => [[]]
  | c :: cs =>
    if sep c then [] :: split_at sep cs
    else
      match split_at sep cs with
      | [] => [[c]]
      | g :: gs => (c :: g) :: gs

/-- Specification side: the tokens of `s`, its maximal non-empty runs of
characters that are not separators, in order. -/
def tokens (sep : Char → Bool) (s : Str) : List Str :=
  (split_at sep s).filter (fun g => !g.isEmpty)

/-- Specification side: the space as separator. -/
abbrev space : Char → Bool := fun c => c == ' '

/-- Specification side: the parallel-execution separator. -/
abbrev amp : Char → Bool := fun c => c == '&'

/-- Specification side: the string `s` without its leading and trailing
whitespace. -/
def trim (s : Str) : Str := (s.dropWhile isspace).rdropWhile isspace

/-- A string as a C program can hold it: no terminator inside. -/
def IsCStr (s : Str) : Prop := NUL ∉ s

/-- A line as `getline` delivers it and the trimming in `main` leaves it:
neither a terminator nor a newline inside. -/
def IsLine (s : Str) : Prop := NUL ∉ s ∧ '\n' ∉ s

instance (s : Str) : Decidable (IsCStr s) := inferInstanceAs (Decidable (NUL ∉ s))

instance (s : Str) : Decidable (IsLine s) := inferInstanceAs (Decidable (NUL ∉ s ∧ '\n' ∉ s))

/-! ## Tokens of a string -/

theorem split_at_ne_nil (sep : Char → Bool) (s : Str) : split_at sep s ≠ [] := by
  cases s with
  | nil => simp [split_at]
  | cons c cs =>
    simp only [split_at]
    split
    · simp
    · split <;> simp

theorem tokens_nil (sep : Char → Bool) : tokens sep [] = [] := by
  simp [tokens, split_at]

theorem tokens_cons_sep (sep : Char → Bool) (c : Char) (cs : Str) (h : sep c = true) :
    tokens sep (c :: cs) = tokens sep cs := by
  simp [tokens, split_at, h]

theorem split_at_append (sep : Char → Bool) (w rest : Str) (hw : ∀ c ∈ w, sep c = false) :
    split_at sep (w ++ rest) =
      (w ++ (split_at sep rest).headD []) :: (split_at sep rest).tail := by
  induction w with
  | nil =>
    cases h : split_at sep rest with
    | nil => exact absurd h (split_at_ne_nil sep rest)
    | cons g gs => simp [h]
  | cons c cs ih =>
    have hc : sep c = false := hw c (by simp)
    have ih1 := ih (fun x hx => hw x (by simp [hx]))
    rw [List.cons_append, split_at, ih1]
    simp [hc]

theorem tokens_word (sep : Char → Bool) (w : Str) (hne : w ≠ [])
    (hw : ∀ c ∈ w, sep c = false) : tokens sep w = [w] := by
  have h := split_at_append sep w [] hw
  simp only [List.append_nil, split_at, List.headD_cons, List.tail_cons] at h
  simp [tokens, h, hne]

theorem tokens_word_sep (sep : Char → Bool) (w : Str) (d : Char) (rest : Str) (hne : w ≠ [])
    (hw : ∀ c ∈ w, sep c = false) (hd : sep d = true) :
    tokens sep (w ++ d :: rest) = w :: tokens sep rest := by
  have h := split_at_append sep w (d :: rest) hw
  simp only [split_at, hd, if_true, List.headD_cons, List.tail_cons, List.append_nil] at h
  simp [tokens, h, hne]

/-- The shape of a string seen from its first token. -/
theorem tokens_shape (d : Char) (g : Str) :
    (∃ k, g = List.replicate k d ∧ tokens (fun c => c == d) g = []) ∨
    (∃ k w, g = List.replicate k d ++ w ∧ w ≠ [] ∧ (∀ c ∈ w, c ≠ d) ∧
      tokens (fun c => c == d) g = [w]) ∨
    (∃ k w g1, g = List.replicate k d ++ w ++ d :: g1 ∧ w ≠ [] ∧ (∀ c ∈ w, c ≠ d) ∧
      tokens (fun c => c == d) g = w :: tokens (fun c => c == d) g1) := by
  induction g with
  | nil => exact Or.inl ⟨0, by simp, tokens_nil _⟩
  | cons c cs ih =>
    by_cases hc : c = d
    · subst hc
      rcases ih with ⟨k, hk, ht⟩ | ⟨k, w, hk, hne, hw, ht⟩ | ⟨k, w, g1, hk, hne, hw, ht⟩
      · refine Or.inl ⟨k + 1, by rw [hk, List.replicate_succ], ?_⟩
        rw [tokens_cons_sep _ _ _ (by simp), ht]
      · refine Or.inr (Or.inl ⟨k + 1, w, by rw [hk, List.replicate_succ]; rfl, hne, hw, ?_⟩)
        rw [tokens_cons_sep _ _ _ (by simp), ht]
      · refine Or.inr (Or.inr ⟨k + 1, w, g1, by rw [hk, List.replicate_succ]; rfl, hne, hw, ?_⟩)
        rw [tokens_cons_sep _ _ _ (by simp), ht]
    · rcases ih with ⟨k, hk, ht⟩ | ⟨k, w, hk, hne, hw, ht⟩ | ⟨k, w, g1, hk, hne, hw, ht⟩
      · cases k with
        | zero =>
          refine Or.inr (Or.inl ⟨0, [c], by simp [hk], by simp, by simpa using hc, ?_⟩)
          simp only [List.replicate_zero] at hk
          rw [hk]
          exact tokens_word _ [c] (by simp) (by simpa using hc)
        | succ k =>
          refine Or.inr (Or.inr ⟨0, [c], List.replicate k d, by simp [hk, List.replicate_succ],
            by simp, by simpa using hc, ?_⟩)
          rw [hk, List.replicate_succ]
          have h := tokens_word_sep (fun c => c == d) [c] d (List.replicate k d) (by simp)
            (by simpa using hc) (by simp)
          simpa using h
      · cases k with
        | zero =>
          simp only [List.replicate_zero, List.nil_append] at hk
          subst hk
          refine Or.inr (Or.inl ⟨0, c :: cs, by simp, by simp, ?_, ?_⟩)
          · intro x hx
            rcases List.mem_cons.1 hx with rfl | hx
            · exact hc
            · exact hw x hx
          · apply tokens_word _ _ (by simp)
            intro x hx
            rcases List.mem_cons.1 hx with rfl | hx
            · simpa using hc
            · simpa using hw x hx
        | succ k =>
          refine Or.inr (Or.inr ⟨0, [c], List.replicate k d ++ w,
            by simp [hk, List.replicate_succ], by simp, by simpa using hc, ?_⟩)
          rw [hk, List.replicate_succ]
          have h := tokens_word_sep (fun c => c == d) [c] d (List.replicate k d ++ w) (by simp)
            (by simpa using hc) (by simp)
          simpa using h
      · cases k with
        | zero =>
          simp only [List.replicate_zero, List.nil_append] at hk
          refine Or.inr (Or.inr ⟨0, c :: w, g1, by simp [hk], by simp, ?_, ?_⟩)
          · intro x hx
            rcases List.mem_cons.1 hx with rfl | hx
            · exact hc
            · exact hw x hx
          · rw [hk]
            have h := tokens_word_sep (fun c => c == d) (c :: w) d g1 (by simp) ?_ (by simp)
            · simpa using h
            · intro x hx
              rcases List.mem_cons.1 hx with rfl | hx
              · simpa using hc
              · simpa using hw x hx
        | succ k =>
          refine Or.inr (Or.inr ⟨0, [c], List.replicate k d ++ w ++ d :: g1,
            by simp [hk, List.replicate_succ], by simp, by simpa using hc, ?_⟩)
          rw [hk, List.replicate_succ]
          have h := tokens_word_sep (fun c => c == d) [c] d
            (List.replicate k d ++ w ++ d :: g1) (by simp) (by simpa using hc) (by simp)
          simpa using h

/-! ## Buffers given by their parts -/

theorem takeWhile_append_stop (p : Char → Bool) (l rest : List Char)
    (hl : ∀ x ∈ l, p x = true) (hr : ∀ c, rest.head? = some c → p c = false) :
    (l ++ rest).takeWhile p = l := by
  induction l with
  | nil =>
    cases rest with
    | nil => rfl
    | cons c cs => simp [List.takeWhile_cons, hr c (by simp)]
  | cons a l ih =>
    have ha : p a = true := hl a (by simp)
    simp only [List.cons_append, List.takeWhile_cons, ha, if_true]
    rw [ih (fun x hx => hl x (by simp [hx]))]

theorem get_append (a b : List Char) (i : Nat) : get (a ++ b) (a.length + i) = get b i := by
  unfold get
  rw [List.getD_append_right _ _ _ _ (by omega)]
  simp

theorem get_append_zero (a b : List Char) : get (a ++ b) a.length = b.headD NUL := by
  have h := get_append a b 0
  simp only [Nat.add_zero] at h
  rw [h]
  cases b <;> simp [get]

theorem set_append (a b : List Char) (c v : Char) (rest : List Char) :
    (a ++ (b ++ c :: rest)).set (a.length + b.length) v = a ++ (b ++ v :: rest) := by
  rw [← List.append_assoc, ← List.append_assoc]
  have h : a.length + b.length = (a ++ b).length := by simp
  rw [h, List.set_append_right _ _ (by omega)]
  simp

/-- The C string at the end of `pre` inside `pre ++ x ++ rest`, when `x` has
no terminator and `rest` is empty or starts with one. -/
theorem cstr_append (pre x rest : List Char) (hx : NUL ∉ x) (hr : rest.headD NUL = NUL) :
    cstr (pre ++ (x ++ rest)) pre.length = x := by
  unfold cstr
  rw [List.drop_left]
  apply takeWhile_append_stop
  · intro c hc
    have : c ≠ NUL := fun h => hx (h ▸ hc)
    simpa using this
  · intro c hc
    cases rest with
    | nil => simp at hc
    | cons r rs =>
      simp only [List.head?_cons, Option.some.injEq] at hc
      simp only [List.headD_cons] at hr
      subst hc
      simp [hr]

theorem strspn_parts (pre rest : List Char) (k : Nat) (d : Char)
    (hr : ∀ c, rest.head? = some c → c ≠ d) :
    strspn (pre ++ (List.replicate k d ++ rest)) pre.length d = k := by
  unfold strspn
  rw [List.drop_left, takeWhile_append_stop]
  · simp
  · intro x hx
    simp [List.eq_of_mem_replicate hx]
  · intro c hc
    simpa using hr c hc

theorem strcspn_parts (pre w rest : List Char) (d : Char)
    (hw : ∀ c ∈ w, c ≠ d ∧ c ≠ NUL) (hr : ∀ c, rest.head? = some c → c = d ∨ c = NUL) :
    strcspn (pre ++ (w ++ rest)) pre.length d = w.length := by
  unfold strcspn
  rw [List.drop_left, takeWhile_append_stop]
  · intro x hx
    simpa using hw x hx
  · intro c hc
    rcases hr c hc with h | h <;> simp [h]

theorem strtok_none (pre rest : List Char) (k : Nat) (d : Char) (hd : d ≠ NUL)
    (hr : rest.headD NUL = NUL) :
    strtok (pre ++ (List.replicate k d ++ rest)) pre.length d =
      ⟨none, pre ++ (List.replicate k d ++ rest), pre.length + k⟩ := by
  have hs : strspn (pre ++ (List.replicate k d ++ rest)) pre.length d = k := by
    apply strspn_parts
    intro c hc
    cases rest with
    | nil => simp at hc
    | cons r rs =>
      simp only [List.head?_cons, Option.some.injEq] at hc
      simp only [List.headD_cons] at hr
      rw [← hc, hr]
      exact fun h => hd h.symm
  have hg : get (pre ++ (List.replicate k d ++ rest)) (pre.length + k) = NUL := by
    have h := get_append_zero (pre ++ List.replicate k d) rest
    simp only [List.length_append, List.length_replicate, List.append_assoc] at h
    rw [h, hr]
  unfold strtok
  simp only [hs, hg, beq_self_eq_true, if_true]

theorem strtok_last (pre w rest : List Char) (k : Nat) (d : Char)
    (hne : w ≠ []) (hw : ∀ c ∈ w, c ≠ d ∧ c ≠ NUL) (hr : rest.headD NUL = NUL) :
    strtok (pre ++ (List.replicate k d ++ (w ++ rest))) pre.length d =
      ⟨some (pre.length + k), pre ++ (List.replicate k d ++ (w ++ rest)),
        pre.length + k + w.length⟩ := by
  obtain ⟨a, w1, rfl⟩ := List.exists_cons_of_ne_nil hne
  have ha := hw a (by simp)
  have hs : strspn (pre ++ (List.replicate k d ++ (a :: w1 ++ rest))) pre.length d = k := by
    apply strspn_parts
    intro c hc
    simp only [List.cons_append, List.head?_cons, Option.some.injEq] at hc
    rw [← hc]
    exact ha.1
  have hg : get (pre ++ (List.replicate k d ++ (a :: w1 ++ rest))) (pre.length + k) = a := by
    have h := get_append_zero (pre ++ List.replicate k d) (a :: w1 ++ rest)
    simp only [List.length_append, List.length_replicate, List.append_assoc] at h
    rw [h]
    rfl
  have hc : strcspn (pre ++ (List.replicate k d ++ (a :: w1 ++ rest))) (pre.length + k) d
      = (a :: w1).length := by
    have h := strcspn_parts (pre ++ List.replicate k d) (a :: w1) rest d hw (by
      intro c hc
      cases rest with
      | nil => simp at hc
      | cons r rs =>
        simp only [List.head?_cons, Option.some.injEq] at hc
        simp only [List.headD_cons] at hr
        exact Or.inr (hc ▸ hr))
    simpa only [List.length_append, List.length_replicate, List.append_assoc] using h
  have he : get (pre ++ (List.replicate k d ++ (a :: w1 ++ rest)))
      (pre.length + k + (a :: w1).length) = NUL := by
    have h := get_append_zero (pre ++ (List.replicate k d ++ (a :: w1))) rest
    simp only [List.length_append, List.length_replicate, List.append_assoc] at h
    rw [← Nat.add_assoc] at h
    rw [h, hr]
  unfold strtok
  simp only [hs, hg, hc, he, beq_self_eq_true, if_true]
  have : (a == NUL) = false := by simpa using ha.2
  simp [this]

theorem strtok_more (pre w rest : List Char) (k : Nat) (d : Char) (hd : d ≠ NUL)
    (hne : w ≠ []) (hw : ∀ c ∈ w, c ≠ d ∧ c ≠ NUL) :
    strtok (pre ++ (List.replicate k d ++ (w ++ d :: rest))) pre.length d =
      ⟨some (pre.length + k), pre ++ (List.replicate k d ++ (w ++ NUL :: rest)),
        pre.length + k + w.length + 1⟩ := by
  obtain ⟨a, w1, rfl⟩ := List.exists_cons_of_ne_nil hne
  have ha := hw a (by simp)
  have hs : strspn (pre ++ (List.replicate k d ++ (a :: w1 ++ d :: rest))) pre.length d = k := by
    apply strspn_parts
    intro c hc
    simp only [List.cons_append, List.head?_cons, Option.some.injEq] at hc
    rw [← hc]
    exact ha.1
  have hg : get (pre ++ (List.replicate k d ++ (a :: w1 ++ d :: rest))) (pre.length + k) = a := by
    have h := get_append_zero (pre ++ List.replicate k d) (a :: w1 ++ d :: rest)
    simp only [List.length_append, List.length_replicate, List.append_assoc] at h
    rw [h]
    rfl
  have hc : strcspn (pre ++ (List.replicate k d ++ (a :: w1 ++ d :: rest))) (pre.length + k) d
      = (a :: w1).length := by
    have h := strcspn_parts (pre ++ List.replicate k d) (a :: w1) (d :: rest) d hw (by
      intro c hc
      simp only [List.head?_cons, Option.some.injEq] at hc
      exact Or.inl hc.symm)
    simpa only [List.length_append, List.length_replicate, List.append_assoc] using h
  have he : get (pre ++ (List.replicate k d ++ (a :: w1 ++ d :: rest)))
      (pre.length + k + (a :: w1).length) = d := by
    have h := get_append_zero (pre ++ (List.replicate k d ++ (a :: w1))) (d :: rest)
    simp only [List.length_append, List.length_replicate, List.append_assoc] at h
    rw [← Nat.add_assoc] at h
    rw [h]
    rfl
  have hset : (pre ++ (List.replicate k d ++ (a :: w1 ++ d :: rest))).set
      (pre.length + k + (a :: w1).length) NUL
      = pre ++ (List.replicate k d ++ (a :: w1 ++ NUL :: rest)) := by
    have h := set_append (pre ++ List.replicate k d) (a :: w1) d NUL rest
    simpa only [List.length_append, List.length_replicate, List.append_assoc] using h
  unfold strtok
  simp only [hs, hg, hc, he, hset]
  have h1 : (a == NUL) = false := by simpa using ha.2
  have h2 : (d == NUL) = false := by simpa using hd
  simp [h1, h2]

/-! ## The table built by `modify_path` -/

theorem table_step (sp : List Str) : ∀ (pc : Nat) (x : Str), pc ≤ sp.length →
    (if pc < sp.length then sp.set pc x else sp ++ [x]).take (pc + 1) = sp.take pc ++ [x] ∧
    pc + 1 ≤ (if pc < sp.length then sp.set pc x else sp ++ [x]).length := by
  induction sp with
  | nil => intro pc x h; simp at h; subst h; simp
  | cons a l ih =>
    intro pc x h
    cases pc with
    | zero => simp
    | succ n =>
      have h1 := ih n x (by simpa using h)
      by_cases hlt : n < l.length
      · simp only [hlt, if_true] at h1
        simp [hlt, h1.1]
        omega
      · simp only [hlt, if_false] at h1
        simp [hlt, h1.1]
        simpa using h

theorem isCStr_parts {a b : List Char} (h : IsCStr (a ++ b)) : IsCStr a ∧ IsCStr b := by
  unfold IsCStr at *
  simp only [List.mem_append, not_or] at h
  exact h

theorem word_ok {w : List Char} {d : Char} (h1 : ∀ c ∈ w, c ≠ d) (h2 : IsCStr w) :
    ∀ c ∈ w, c ≠ d ∧ c ≠ NUL :=
  fun c hc => ⟨h1 c hc, fun h => h2 (h ▸ hc)⟩

theorem space_ne_nul : ' ' ≠ NUL := by decide

theorem amp_ne_nul : '&' ≠ NUL := by decide

/-- What `strtok` does on a buffer that holds the C string `g` at `s`. -/
theorem strtok_step (d : Char) (hd : d ≠ NUL) (m pre g rest : List Char) (s : Nat)
    (hm : m = pre ++ (g ++ NUL :: rest)) (hs : s = pre.length) (hg : IsCStr g) :
    (tokens (fun c => c == d) g = [] ∧ ∃ k, strtok m s d = ⟨none, m, s + k⟩) ∨
    (∃ k w pre1 g1, tokens (fun c => c == d) g = w :: tokens (fun c => c == d) g1 ∧
      strtok m s d = ⟨some (s + k), pre1 ++ (g1 ++ NUL :: rest), pre1.length⟩ ∧ IsCStr g1 ∧
      (∃ x, pre1 = pre ++ x) ∧ w ≠ [] ∧ (∀ c ∈ w, c ≠ d) ∧
      (∀ g2 : List Char, (g1 = [] → g2 = []) → cstr (pre1 ++ (g2 ++ NUL :: rest)) (s + k) = w) ∧
      g1.length < g.length ∧ (∀ c ∈ w, c ∈ g) ∧ (∀ c ∈ g1, c ∈ g)) := by
  subst hm hs
  rcases tokens_shape d g with ⟨k, hk, ht⟩ | ⟨k, w, hk, hne, hw, ht⟩ | ⟨k, w, g1, hk, hne, hw, ht⟩
  · left
    have h := strtok_none pre (NUL :: rest) k d hd rfl
    rw [← hk] at h
    exact ⟨ht, k, h⟩
  · right
    subst hk
    have hwg := isCStr_parts hg
    have h := strtok_last pre w (NUL :: rest) k d hne (word_ok hw hwg.2) rfl
    rw [← List.append_assoc (List.replicate k d) w] at h
    refine ⟨k, w, pre ++ (List.replicate k d ++ w), [], ?_, ?_, ?_, ⟨_, rfl⟩, hne, hw,
      ?_, ?_, ?_, ?_⟩
    · rw [ht, tokens_nil]
    · rw [h]; simp [Nat.add_assoc]
    · simp [IsCStr]
    · intro g2 hg2
      rw [hg2 rfl]
      have hc := cstr_append (pre ++ List.replicate k d) w (NUL :: rest) hwg.2 rfl
      simpa using hc
    · have : 0 < w.length := List.length_pos.2 hne
      simp only [List.length_nil, List.length_append]
      omega
    · intro c hc; simp [hc]
    · intro c hc; simp at hc
  · right
    subst hk
    have hwg := isCStr_parts hg
    have hwg1 := isCStr_parts hwg.1
    have hg1 : IsCStr g1 := fun h => hwg.2 (List.mem_cons_of_mem _ h)
    have h := strtok_more pre w (g1 ++ NUL :: rest) k d hd hne (word_ok hw hwg1.2)
    have e : pre ++ (List.replicate k d ++ w ++ d :: g1 ++ NUL :: rest)
        = pre ++ (List.replicate k d ++ (w ++ d :: (g1 ++ NUL :: rest))) := by simp
    rw [e, h]
    refine ⟨k, w, pre ++ (List.replicate k d ++ (w ++ [NUL])), g1, ht, ?_, hg1,
      ⟨_, rfl⟩, hne, hw, ?_, ?_, ?_, ?_⟩
    · simp [Nat.add_assoc]
    · intro g2 _
      have hc := cstr_append (pre ++ List.replicate k d) w (NUL :: (g2 ++ NUL :: rest))
        hwg1.2 rfl
      simpa using hc
    · simp only [List.length_append, List.length_cons]
      omega
    · intro c hc; simp [hc]
    · intro c hc; simp [hc]

theorem path_loop_spec (fuel : Nat) : ∀ (m g pre rest : List Char) (s : Nat) (sp : List Str)
    (pc tok : Nat), m = pre ++ (g ++ NUL :: rest) → s = pre.length →
    IsCStr g → (tokens space g).length < fuel → pc ≤ sp.length →
    (path_loop fuel m (some tok) s sp pc).1.take (path_loop fuel m (some tok) s sp pc).2.1
      = sp.take pc ++ cstr m tok :: tokens space g := by
  induction fuel with
  | zero => intro m g pre rest s sp pc tok _ _ _ h; omega
  | succ fuel ih =>
    intro m g pre rest s sp pc tok hm hs hg hlen hpc
    have hstep := table_step sp pc (cstr m tok) hpc
    rcases strtok_step ' ' space_ne_nul m pre g rest s hm hs hg with
      ⟨ht, k, h1⟩ | ⟨k, w, pre1, g1, ht, h1, hg1, _, _, _, hc, _⟩
    · simp only [path_loop, h1]
      rw [show tokens space g = [] from ht]
      cases fuel <;> simp [path_loop, hstep.1]
    · simp only [path_loop, h1]
      have hlen1 : (tokens space g1).length < fuel := by
        rw [show tokens space g = w :: tokens space g1 from ht] at hlen
        simpa using hlen
      rw [ih _ g1 pre1 rest _ _ (pc + 1) (s + k) rfl rfl hg1 hlen1 hstep.2, hstep.1]
      rw [show tokens space g = w :: tokens space g1 from ht]
      rw [hc g1 (fun h => h)]
      simp

theorem tokens_length_le (d : Char) : ∀ (n : Nat) (g : Str), g.length ≤ n →
    (tokens (fun c => c == d) g).length ≤ g.length := by
  intro n
  induction n with
  | zero =>
    intro g h
    have : g = [] := List.length_eq_zero.1 (by omega)
    subst this
    simp [tokens_nil]
  | succ n ih =>
    intro g h
    rcases tokens_shape d g with ⟨k, hk, ht⟩ | ⟨k, w, hk, hne, hw, ht⟩ | ⟨k, w, g1, hk, hne, hw, ht⟩
    · rw [ht]; simp
    · rw [ht, hk]
      have : 0 < w.length := List.length_pos.2 hne
      simp only [List.length_singleton, List.length_append]
      omega
    · have hl : g.length = k + w.length + (g1.length + 1) := by rw [hk]; simp [Nat.add_assoc]
      have : 0 < w.length := List.length_pos.2 hne
      have := ih g1 (by omega)
      rw [ht, List.length_cons]
      omega

theorem get_of_cstr (m : Mem) (p : Nat) (c : Char) (x : Str) (h : cstr m p = c :: x) :
    get m p = c := by
  unfold cstr at h
  unfold get
  cases hd : m.drop p with
  | nil => rw [hd] at h; simp at h
  | cons a l =>
    rw [hd, List.takeWhile_cons] at h
    split at h
    · simp only [List.cons.injEq] at h
      have hp : p < m.length := by
        by_contra hge
        rw [List.drop_eq_nil_of_le (by omega)] at hd
        simp at hd
      have h2 : (m.drop p)[0]? = some a := by rw [hd]; simp
      rw [List.getElem?_drop, Nat.add_zero, List.getElem?_eq_getElem hp] at h2
      simp only [Option.some.injEq] at h2
      rw [List.getD_eq_getElem _ _ hp, h2, h.1]
    · simp at h

/-- The table `modify_path` leaves for a line whose tokens are a first word
and `args`. -/
theorem modify_path_table (tbl : List Str) (line rest : List Char) (cmd : Str) (args : List Str)
    (hline : IsLine line) (htok : tokens space line = cmd :: args) :
    (modify_path (line ++ NUL :: rest) 0 (some tbl)).map Prod.snd
      = some (if args = [] then [[]] else args) := by
  have hm : line ++ NUL :: rest = [] ++ (line ++ NUL :: rest) := rfl
  rcases strtok_step ' ' space_ne_nul _ [] line rest 0 hm rfl hline.1 with
    ⟨ht, _, _⟩ | ⟨k, w, pre1, g1, ht, h1, hg1, _, _, _, _, hl1, _, hsub1⟩
  · rw [show tokens space line = [] from ht] at htok
    simp at htok
  · rw [show tokens space line = w :: tokens space g1 from ht] at htok
    simp only [List.cons.injEq] at htok
    obtain ⟨_, hargs⟩ := htok
    rcases strtok_step ' ' space_ne_nul _ pre1 g1 rest _ rfl rfl hg1 with
      ⟨ht2, k2, h2⟩ | ⟨k2, w2, pre2, g2, ht2, h2, hg2, _, hne2, _, hc2, hl2, hsub2, _⟩
    · have ha : args = [] := by rw [← hargs]; exact ht2
      unfold modify_path
      simp only [h1, Option.isSome_some, if_true, h2, ha]
      simp
    · have ha : args = w2 :: tokens space g2 := by rw [← hargs]; exact ht2
      have hc := hc2 g2 (fun h => h)
      obtain ⟨a, w3, hw3⟩ := List.exists_cons_of_ne_nil hne2
      have hget := get_of_cstr _ _ a w3 (hc.trans hw3)
      have ha1 : a ∈ line := hsub1 a (hsub2 a (by rw [hw3]; simp))
      have hn1 : (a == NUL) = false := by
        have : a ≠ NUL := fun h => hline.1 (h ▸ ha1)
        simpa using this
      have hn2 : (a == '\n') = false := by
        have : a ≠ '\n' := fun h => hline.2 (h ▸ ha1)
        simpa using this
      have hfuel : (tokens space g2).length < (line ++ NUL :: rest).length + 1 := by
        have := tokens_length_le ' ' g2.length g2 (Nat.le_refl _)
        have : (tokens space g2).length ≤ g2.length := this
        simp only [List.length_append, List.length_cons]
        omega
      have hp := path_loop_spec _ _ g2 pre2 rest _ tbl 0 (pre1.length + k2) rfl rfl hg2 hfuel
        (Nat.zero_le _)
      unfold modify_path
      simp only [h1, Option.isSome_some, if_true, h2, hget, hn1, hn2,
        Option.getD_some, Option.map_some', Bool.or_self, Bool.false_eq_true, if_false]
      rw [hp, hc, ha]
      simp

/-! ## Trimming in place -/

theorem cstr_isCStr (m : Mem) (p : Nat) : IsCStr (cstr m p) := by
  intro h
  have := List.mem_takeWhile_imp h
  simp at this

theorem trim_end_spec (n : Nat) : ∀ (f a r : List Char), f.length = n → IsCStr f →
    ∃ f1, trim_end (a ++ (f ++ NUL :: r)) a.length n = a ++ (f1 ++ NUL :: r) ∧
      f1.length = f.length ∧ cstr (a ++ (f1 ++ NUL :: r)) a.length = f.rdropWhile isspace := by
  induction n with
  | zero =>
    intro f a r hf _
    have : f = [] := List.length_eq_zero.1 hf
    subst this
    refine ⟨[], rfl, rfl, ?_⟩
    have := cstr_append a [] (NUL :: r) (by simp) rfl
    simpa using this
  | succ n ih =>
    intro f a r hf hc
    have hne : f ≠ [] := by intro h; subst h; simp at hf
    have hf0 := List.dropLast_append_getLast hne
    generalize f.dropLast = f0 at hf0
    generalize f.getLast hne = c at hf0
    subst hf0
    have hlen : f0.length = n := by simpa using hf
    have hcs := isCStr_parts hc
    have hget : get (a ++ (f0 ++ [c] ++ NUL :: r)) (a.length + n) = c := by
      have h := get_append_zero (a ++ f0) (c :: NUL :: r)
      simp only [List.length_append, List.append_assoc, hlen, List.headD_cons] at h
      simpa using h
    simp only [trim_end, hget]
    by_cases hsp : isspace c = true
    · simp only [hsp, if_true]
      have hset : (a ++ (f0 ++ [c] ++ NUL :: r)).set (a.length + n) NUL
          = a ++ (f0 ++ NUL :: (NUL :: r)) := by
        have h := set_append a f0 c NUL (NUL :: r)
        rw [hlen] at h
        simpa using h
      rw [hset]
      obtain ⟨f1, h1, h2, h3⟩ := ih f0 a (NUL :: r) hlen hcs.1
      refine ⟨f1 ++ [NUL], ?_, ?_, ?_⟩
      · rw [h1]; simp
      · simp [h2]
      · have e : a ++ (f1 ++ [NUL] ++ NUL :: r) = a ++ (f1 ++ NUL :: NUL :: r) := by simp
        rw [e, h3, List.rdropWhile_concat_pos _ _ _ hsp]
    · simp only [hsp]
      refine ⟨f0 ++ [c], by simp, rfl, ?_⟩
      rw [List.rdropWhile_concat_neg _ _ _ hsp]
      exact cstr_append a (f0 ++ [c]) (NUL :: r) hc rfl

theorem bytes_succ (m : Mem) (p n : Nat) : bytes m p (n + 1) = bytes m p n ++ [get m (p + n)] := by
  simp [bytes, List.range_succ]

theorem bytes_parts (a f r : List Char) : ∀ n, n ≤ f.length →
    bytes (a ++ (f ++ r)) a.length n = f.take n := by
  intro n
  induction n with
  | zero => intro _; simp [bytes]
  | succ n ih =>
    intro h
    rw [bytes_succ, ih (by omega)]
    have hn : n < f.length := by omega
    have hg : get (a ++ (f ++ r)) (a.length + n) = f[n] := by
      rw [get_append]
      unfold get
      rw [List.getD_append _ _ _ _ hn, List.getD_eq_getElem _ _ hn]
    rw [hg, List.take_succ, List.getElem?_eq_getElem hn]
    simp

theorem takeWhile_space_parts (w rest : List Char) (hw : IsCStr w) :
    (w ++ NUL :: rest).takeWhile (fun c => c != NUL && isspace c) = w.takeWhile isspace := by
  have hsplit := List.takeWhile_append_dropWhile isspace w
  have e : w ++ NUL :: rest = w.takeWhile isspace ++ (w.dropWhile isspace ++ NUL :: rest) := by
    rw [← List.append_assoc, hsplit]
  rw [e]
  apply takeWhile_append_stop
  · intro x hx
    have h1 := List.mem_takeWhile_imp hx
    have h2 : x ∈ w := List.takeWhile_subset _ hx
    have h3 : x ≠ NUL := fun h => hw (h ▸ h2)
    simp [h1, h3]
  · intro c hc
    cases hdw : w.dropWhile isspace with
    | nil => rw [hdw] at hc; simp at hc; subst hc; simp
    | cons x xs =>
      rw [hdw] at hc
      simp only [List.cons_append, List.head?_cons, Option.some.injEq] at hc
      subst hc
      have := List.head_dropWhile_not isspace w (by rw [hdw]; simp)
      simp only [hdw, List.head_cons] at this
      simp [this]

theorem rlatw_spec (a w rest : List Char) (hw : IsCStr w) :
    ∃ w1, remove_lead_and_trailing_whitespaces (a ++ (w ++ NUL :: rest)) a.length
        = a ++ (w1 ++ NUL :: rest) ∧ w1.length = w.length ∧
      cstr (a ++ (w1 ++ NUL :: rest)) a.length = trim w := by
  unfold remove_lead_and_trailing_whitespaces
  have hget : get (a ++ (w ++ NUL :: rest)) a.length = (w ++ NUL :: rest).headD NUL :=
    get_append_zero a _
  cases w with
  | nil =>
    refine ⟨[], ?_, rfl, ?_⟩
    · rw [hget]; simp
    · have := cstr_append a [] (NUL :: rest) (by simp) rfl
      simpa [trim] using this
  | cons c cs =>
    have hc : c ≠ NUL := fun h => hw (by rw [h]; simp)
    have hcb : (c == NUL) = false := by simpa using hc
    rw [hget]
    simp only [List.cons_append, List.headD_cons, hcb, Bool.false_eq_true, if_false]
    rw [List.drop_left, ← List.cons_append, takeWhile_space_parts (c :: cs) rest hw]
    have hsplit := List.takeWhile_append_dropWhile isspace (c :: cs)
    generalize hws : (c :: cs).takeWhile isspace = ws at hsplit
    generalize hf : (c :: cs).dropWhile isspace = f at hsplit
    have htrim : trim (c :: cs) = f.rdropWhile isspace := by rw [trim, hf]
    rw [htrim]
    rw [← hsplit] at hw ⊢
    have hparts := isCStr_parts hw
    by_cases hk : ws.length = 0
    · have hnil : ws = [] := List.length_eq_zero.1 hk
      subst hnil
      simp only [List.length_nil, bne_self_eq_false, Bool.false_eq_true, if_false,
        List.nil_append]
      have hlen : strlen (a ++ (f ++ NUL :: rest)) a.length = f.length := by
        unfold strlen; rw [cstr_append a f (NUL :: rest) hparts.2 rfl]
      rw [hlen]
      exact trim_end_spec f.length f a rest rfl hparts.2
    · have hkb : (ws.length != 0) = true := by simpa using hk
      simp only [hkb, if_true]
      have hm : a ++ (ws ++ f ++ NUL :: rest) = (a ++ ws) ++ ((f ++ [NUL]) ++ rest) := by simp
      have hlen : strlen (a ++ (ws ++ f ++ NUL :: rest)) (a.length + ws.length) = f.length := by
        unfold strlen
        have h := cstr_append (a ++ ws) f (NUL :: rest) hparts.2 rfl
        simp only [List.length_append, List.append_assoc] at h
        simp only [List.append_assoc]
        rw [h]
      have hbytes : bytes (a ++ (ws ++ f ++ NUL :: rest)) (a.length + ws.length) (f.length + 1)
          = f ++ [NUL] := by
        have h := bytes_parts (a ++ ws) (f ++ [NUL]) rest (f.length + 1) (by simp)
        simp only [List.length_append] at h
        rw [hm, h]
        simp
      have hdrop : (a ++ (ws ++ f ++ NUL :: rest)).drop (a.length + (f.length + 1))
          = (ws ++ f).drop (f.length + 1) ++ NUL :: rest := by
        rw [List.drop_append, List.drop_append_of_le_length]
        simp only [List.length_append]
        omega
      unfold memmove
      rw [hlen, hbytes, hdrop, List.take_left]
      have hm1 : a ++ (f ++ [NUL]) ++ ((ws ++ f).drop (f.length + 1) ++ NUL :: rest)
          = a ++ (f ++ NUL :: ((ws ++ f).drop (f.length + 1) ++ NUL :: rest)) := by simp
      rw [hm1]
      have hlen1 : strlen (a ++ (f ++ NUL :: ((ws ++ f).drop (f.length + 1) ++ NUL :: rest)))
          a.length = f.length := by
        unfold strlen
        rw [cstr_append a f (NUL :: ((ws ++ f).drop (f.length + 1) ++ NUL :: rest)) hparts.2 rfl]
      rw [hlen1]
      obtain ⟨f1, h1, h2, h3⟩ := trim_end_spec f.length f a
        ((ws ++ f).drop (f.length + 1) ++ NUL :: rest) rfl hparts.2
      refine ⟨f1 ++ NUL :: (ws ++ f).drop (f.length + 1), ?_, ?_, ?_⟩
      · rw [h1]; simp
      · simp only [List.length_append, List.length_cons, List.length_drop, h2]
        omega
      · have e : a ++ (f1 ++ NUL :: (ws ++ f).drop (f.length + 1) ++ NUL :: rest)
            = a ++ (f1 ++ NUL :: ((ws ++ f).drop (f.length + 1) ++ NUL :: rest)) := by simp
        rw [e, h3]

/-! ## The splitting loop -/

/-- What `strtok` does on a buffer that holds the C string `g` at `s`, with
the token it returns laid out: `w` at the end of `a`, then `q`, the
terminator written over the delimiter, or nothing when the token ends the
string. -/
theorem strtok_layout (d : Char) (hd : d ≠ NUL) (m pre g rest : List Char) (s : Nat)
    (hm : m = pre ++ (g ++ NUL :: rest)) (hs : s = pre.length) (hg : IsCStr g) :
    (tokens (fun c => c == d) g = [] ∧ ∃ k, strtok m s d = ⟨none, m, s + k⟩) ∨
    (∃ a w q g1, tokens (fun c => c == d) g = w :: tokens (fun c => c == d) g1 ∧
      strtok m s d = ⟨some a.length, a ++ (w ++ q ++ (g1 ++ NUL :: rest)),
        a.length + w.length + q.length⟩ ∧
      (q = [NUL] ∨ (q = [] ∧ g1 = [])) ∧ IsCStr w ∧ IsCStr g1 ∧ w ≠ [] ∧ (∀ c ∈ w, c ≠ d)) := by
  subst hm hs
  rcases tokens_shape d g with ⟨k, hk, ht⟩ | ⟨k, w, hk, hne, hw, ht⟩ | ⟨k, w, g1, hk, hne, hw, ht⟩
  · left
    have h := strtok_none pre (NUL :: rest) k d hd rfl
    rw [← hk] at h
    exact ⟨ht, k, h⟩
  · right
    subst hk
    have hwg := isCStr_parts hg
    have h := strtok_last pre w (NUL :: rest) k d hne (word_ok hw hwg.2) rfl
    rw [← List.append_assoc (List.replicate k d) w] at h
    refine ⟨pre ++ List.replicate k d, w, [], [], ?_, ?_, Or.inr ⟨rfl, rfl⟩, hwg.2, ?_, hne, hw⟩
    · rw [ht, tokens_nil]
    · rw [h]; simp
    · simp [IsCStr]
  · right
    subst hk
    have hwg := isCStr_parts hg
    have hwg1 := isCStr_parts hwg.1
    have hg1 : IsCStr g1 := fun h => hwg.2 (List.mem_cons_of_mem _ h)
    have h := strtok_more pre w (g1 ++ NUL :: rest) k d hd hne (word_ok hw hwg1.2)
    have e : pre ++ (List.replicate k d ++ w ++ d :: g1 ++ NUL :: rest)
        = pre ++ (List.replicate k d ++ (w ++ d :: (g1 ++ NUL :: rest))) := by simp
    rw [e, h]
    refine ⟨pre ++ List.replicate k d, w, [NUL], g1, ht, ?_, Or.inl rfl, hwg1.2, hg1, hne, hw⟩
    simp

theorem split_loop_spec (cap fuel : Nat) : ∀ (g a w q rest : List Char) (acc : List Str),
    IsCStr w → IsCStr g → (q = [NUL] ∨ (q = [] ∧ g = [])) →
    (tokens amp g).length < fuel → acc.length + 1 + (tokens amp g).length ≤ cap →
    ∃ m1, split_loop (fun m1 token _ => some (cstr m1 token)) cap fuel
        (a ++ (w ++ q ++ (g ++ NUL :: rest))) (some a.length)
        (a.length + w.length + q.length) acc
      = Launched.done (acc ++ trim w :: (tokens amp g).map trim) m1 := by
  induction fuel with
  | zero => intro g a w q rest acc _ _ _ h; omega
  | succ fuel ih =>
    intro g a w q rest acc hw hg hq hfuel hcap
    have hform : ∃ tl, a ++ (w ++ q ++ (g ++ NUL :: rest)) = a ++ (w ++ NUL :: tl) ∧
        ∀ w1 : List Char, a ++ (w1 ++ NUL :: tl) = (a ++ (w1 ++ q)) ++ (g ++ NUL :: rest) := by
      rcases hq with rfl | ⟨rfl, rfl⟩
      · exact ⟨g ++ NUL :: rest, by simp, fun w1 => by simp⟩
      · exact ⟨rest, by simp, fun w1 => by simp⟩
    obtain ⟨tl, hm, hback⟩ := hform
    obtain ⟨w1, h1, h2, h3⟩ := rlatw_spec a w tl hw
    have hcap1 : ¬ cap ≤ acc.length := by omega
    simp only [split_loop, hm, h1, h3, hcap1, if_false]
    have hsave : a.length + w.length + q.length = (a ++ (w1 ++ q)).length := by
      simp [h2, Nat.add_assoc]
    rcases strtok_layout '&' amp_ne_nul _ (a ++ (w1 ++ q)) g rest _ (hback w1) hsave hg with
      ⟨ht, k, hs⟩ | ⟨a2, w2, q2, g2, ht, hs, hq2, hw2, hg2, _, _⟩
    · rw [hs, show tokens amp g = [] from ht]
      cases fuel <;> exact ⟨a ++ (w1 ++ NUL :: tl), by simp [split_loop]⟩
    · rw [hs]
      simp only []
      have hlen : (tokens amp g).length = (tokens amp g2).length + 1 := by
        rw [show tokens amp g = w2 :: tokens amp g2 from ht]; simp
      obtain ⟨m2, hm2⟩ := ih g2 a2 w2 q2 rest (acc ++ [trim w]) hw2 hg2 hq2 (by omega)
        (by simp only [List.length_append, List.length_singleton]; omega)
      refine ⟨m2, ?_⟩
      rw [hm2, show tokens amp g = w2 :: tokens amp g2 from ht]
      simp

/-- The groups the splitting loop hands on: the tokens between the `&`,
each trimmed. -/
theorem command_groups_spec (line rest : List Char) (hline : IsCStr line)
    (hcap : (tokens amp line).length ≤ MAX_PARALLEL_COMMANDS) :
    ∃ m1, command_groups (line ++ NUL :: rest)
      = Launched.done ((tokens amp line).map trim) m1 := by
  unfold command_groups
  rcases strtok_layout '&' amp_ne_nul (line ++ NUL :: rest) [] line rest 0 rfl rfl hline with
    ⟨ht, k, hs⟩ | ⟨a2, w2, q2, g2, ht, hs, hq2, hw2, hg2, _, _⟩
  · simp only [hs]
    rw [show tokens amp line = [] from ht]
    exact ⟨line ++ NUL :: rest, by simp [split_loop]⟩
  · simp only [hs]
    have hlen : (tokens amp line).length = (tokens amp g2).length + 1 := by
      rw [show tokens amp line = w2 :: tokens amp g2 from ht]; simp
    have hle := tokens_length_le '&' g2.length g2 (Nat.le_refl _)
    have hle2 := tokens_length_le '&' line.length line (Nat.le_refl _)
    have hle3 : (tokens amp g2).length ≤ g2.length := hle
    have hle4 : (tokens amp line).length ≤ line.length := hle2
    obtain ⟨m2, hm2⟩ := split_loop_spec MAX_PARALLEL_COMMANDS
      ((line ++ NUL :: rest).length + 1) g2 a2 w2 q2 rest [] hw2 hg2 hq2
      (by simp only [List.length_append, List.length_cons]; omega)
      (by simp only [List.length_nil]; omega)
    refine ⟨m2, ?_⟩
    rw [hm2, show tokens amp line = w2 :: tokens amp g2 from ht]
    simp

/-! ## The external launcher -/

theorem args_loop_none (fuel : Nat) (m : Mem) (save : Nat) (args : List Nat) :
    args_loop fuel m none save args = (args, m) := by
  cases fuel <;> rfl

theorem args_loop_spec (fuel : Nat) : ∀ (m g pre rest : List Char) (s tok : Nat)
    (acc : List Nat), m = pre ++ (g ++ NUL :: rest) → s = pre.length → IsCStr g →
    (tokens space g).length < fuel →
    ∃ ptrs gf, args_loop fuel m (some tok) s acc
        = (acc ++ tok :: ptrs, pre ++ (gf ++ NUL :: rest)) ∧ (g = [] → gf = []) ∧
      ptrs.map (cstr (pre ++ (gf ++ NUL :: rest))) = tokens space g := by
  induction fuel with
  | zero => intro m g pre rest s tok acc _ _ _ h; omega
  | succ fuel ih =>
    intro m g pre rest s tok acc hm hs hg hlen
    subst hm hs
    rcases strtok_step ' ' space_ne_nul _ pre g rest _ rfl rfl hg with
      ⟨ht, k, h1⟩ | ⟨k, w, pre1, g1, ht, h1, hg1, ⟨x, hx⟩, hne, _, hc, _, _, _⟩
    · refine ⟨[], g, ?_, fun h => h, ?_⟩
      · simp only [args_loop, h1, args_loop_none]
      · rw [show tokens space g = [] from ht]; rfl
    · have hlen1 : (tokens space g1).length < fuel := by
        rw [show tokens space g = w :: tokens space g1 from ht] at hlen
        simpa using hlen
      obtain ⟨ptrs, gf, e1, e2, e3⟩ :=
        ih _ g1 pre1 rest _ (pre.length + k) (acc ++ [tok]) rfl rfl hg1 hlen1
      have hgne : g ≠ [] := by
        intro h
        rw [h, tokens_nil] at ht
        simp at ht
      refine ⟨(pre.length + k) :: ptrs, x ++ gf, ?_, fun h => absurd h hgne, ?_⟩
      · simp only [args_loop, h1]
        rw [e1, hx]
        simp
      · have e : pre ++ (x ++ gf ++ NUL :: rest) = pre1 ++ (gf ++ NUL :: rest) := by
          rw [hx]; simp
        rw [e, List.map_cons, e3, hc gf e2]
        exact ht.symm

/-- The second half of `run_extern_cmd` on a buffer that holds the C string
`g` at `buffer`. -/
theorem launch_spec (env : Env) (sp : List Str) (pre g rest : List Char) (w : Worker)
    (hg : IsCStr g) :
    launch env sp (pre ++ (g ++ NUL :: rest)) pre.length w =
      if 512 ≤ (tokens space g).length then { w with exit := Exit.undefined }
      else
        match tokens space g, sp with
        | [], _ :: _ => { w with argv := some [], exit := Exit.undefined }
        | [], [] =>
          { w with argv := some [], errors := w.errors + 1, exit := free_exit pre.length 0 }
        | arg0 :: args, _ =>
          match resolve env.access sp arg0 with
          | none =>
            { w with
              argv := some (arg0 :: args), errors := w.errors + 1, exit := free_exit pre.length 0 }
          | some path =>
            if env.execv path (arg0 :: args) then
              { w with argv := some (arg0 :: args), exit := Exit.execed path (arg0 :: args) }
            else system_error_exit { w with argv := some (arg0 :: args) } pre.length := by
  have hargs : ∃ m1 : List Nat × Mem, args_loop ((pre ++ (g ++ NUL :: rest)).length + 1)
      (strtok (pre ++ (g ++ NUL :: rest)) pre.length ' ').mem
      (strtok (pre ++ (g ++ NUL :: rest)) pre.length ' ').token
      (strtok (pre ++ (g ++ NUL :: rest)) pre.length ' ').save [] = m1 ∧
      m1.1.map (cstr m1.2) = tokens space g := by
    rcases strtok_step ' ' space_ne_nul _ pre g rest _ rfl rfl hg with
      ⟨ht, k, h1⟩ | ⟨k, w1, pre1, g1, ht, h1, hg1, _, _, _, hc, hl, _, _⟩
    · refine ⟨([], pre ++ (g ++ NUL :: rest)), ?_, ?_⟩
      · rw [h1]; simp [args_loop_none]
      · rw [show tokens space g = [] from ht]; rfl
    · have hle : (tokens space g1).length ≤ g1.length :=
        tokens_length_le ' ' g1.length g1 (Nat.le_refl _)
      obtain ⟨ptrs, gf, e1, e2, e3⟩ := args_loop_spec
        ((pre ++ (g ++ NUL :: rest)).length + 1) _ g1 pre1 rest _ (pre.length + k) [] rfl rfl hg1
        (by simp only [List.length_append, List.length_cons]; omega)
      refine ⟨((pre.length + k) :: ptrs, pre1 ++ (gf ++ NUL :: rest)), ?_, ?_⟩
      · rw [h1]
        simpa using e1
      · simp only [List.map_cons]
        rw [e3, hc gf e2]
        exact ht.symm
  obtain ⟨m1, h1, h2⟩ := hargs
  unfold launch
  simp only [h1, List.length_map, h2]
  have hl : m1.1.length = (tokens space g).length := by rw [← h2]; simp
  rw [hl]
  split
  · rfl
  · cases htk : tokens space g with
    | nil => cases sp <;> simp
    | cons arg0 args =>
      rfl

theorem run_extern_plain (env : Env) (sp : List Str) (pre g rest : List Char)
    (hg : IsCStr g) (hr : '>' ∉ g) :
    run_extern_cmd env sp (pre ++ (g ++ NUL :: rest)) pre.length
      = launch env sp (pre ++ (g ++ NUL :: rest)) pre.length ⟨0, [], none, none, Exit.returned⟩ := by
  unfold run_extern_cmd strchr
  rw [cstr_append pre g (NUL :: rest) hg rfl]
  simp [hr]

theorem trim_dropWhile (s : Str) : trim (s.dropWhile isspace) = trim s := by
  unfold trim
  rw [List.dropWhile_idempotent]

/-- The redirection half of `run_extern_cmd` on a command group
`before > after`. -/
theorem run_extern_redirect (env : Env) (sp : List Str) (pre before after rest : List Char)
    (hg : IsCStr (before ++ '>' :: after)) (hb : '>' ∉ before) :
    run_extern_cmd env sp (pre ++ (before ++ '>' :: after ++ NUL :: rest)) pre.length =
      if after.dropWhile isspace = [] then ⟨1, [], none, none, free_exit pre.length 0⟩
      else if ' ' ∈ after.dropWhile isspace then ⟨1, [], none, none, free_exit pre.length 0⟩
      else if !env.creat (trim after) then
        system_error_exit ⟨0, [], some (trim after), none, Exit.returned⟩ pre.length
      else if !env.dup2 then
        system_error_exit ⟨0, [], some (trim after), none, Exit.returned⟩ pre.length
      else
        launch env sp (pre ++ (before ++ NUL :: (after ++ NUL :: rest))) pre.length
          ⟨0, [], some (trim after), none, Exit.returned⟩ := by
  have hparts := isCStr_parts hg
  have hafter : IsCStr after := fun h => hparts.2 (List.mem_cons_of_mem _ h)
  have hsplit := List.takeWhile_append_dropWhile isspace after
  generalize hws : after.takeWhile isspace = ws at hsplit
  have htrim : trim after = trim (after.dropWhile isspace) := (trim_dropWhile after).symm
  rw [htrim]
  generalize hf : after.dropWhile isspace = f at hsplit
  have hfhead : ∀ c, f.head? = some c → isspace c = false := by
    intro c hc
    cases hfc : f with
    | nil => rw [hfc] at hc; simp at hc
    | cons x xs =>
      rw [hfc] at hc
      simp only [List.head?_cons, Option.some.injEq] at hc
      have := List.head_dropWhile_not isspace after (by rw [hf, hfc]; simp)
      simp only [hf, hfc, List.head_cons] at this
      rw [← hc]; simpa using this
  have hwsf := isCStr_parts (hsplit ▸ hafter)
  -- the redirection marker
  have hstrchr : strchr (pre ++ (before ++ '>' :: after ++ NUL :: rest)) pre.length '>'
      = some (pre.length + before.length) := by
    unfold strchr
    rw [cstr_append pre (before ++ '>' :: after) (NUL :: rest) hg rfl]
    have htw : (before ++ '>' :: after).takeWhile (fun x => x != '>') = before := by
      apply takeWhile_append_stop
      · intro x hx
        have : x ≠ '>' := fun h => hb (h ▸ hx)
        simpa using this
      · intro c hc
        simp only [List.head?_cons, Option.some.injEq] at hc
        subst hc; simp
    rw [htw]
    simp
  have hset : (pre ++ (before ++ '>' :: after ++ NUL :: rest)).set (pre.length + before.length) NUL
      = pre ++ (before ++ NUL :: (after ++ NUL :: rest)) := by
    have h := set_append pre before '>' NUL (after ++ NUL :: rest)
    simp [h]
  have hdrop : (pre ++ (before ++ NUL :: (after ++ NUL :: rest))).drop
      (pre.length + before.length + 1) = after ++ NUL :: rest := by
    have e : pre ++ (before ++ NUL :: (after ++ NUL :: rest))
        = (pre ++ (before ++ [NUL])) ++ (after ++ NUL :: rest) := by simp
    have l : pre.length + before.length + 1 = (pre ++ (before ++ [NUL])).length := by
      simp [Nat.add_assoc]
    rw [e, l, List.drop_left]
  have hm1 : pre ++ (before ++ NUL :: (after ++ NUL :: rest))
      = (pre ++ (before ++ NUL :: ws)) ++ (f ++ NUL :: rest) := by
    rw [← hsplit]; simp
  have hfile : pre.length + before.length + 1 + ws.length
      = (pre ++ (before ++ NUL :: ws)).length := by
    simp only [List.length_append, List.length_cons]
    omega
  have hget : get (pre ++ (before ++ NUL :: (after ++ NUL :: rest)))
      (pre.length + before.length + 1 + ws.length) = (f ++ NUL :: rest).headD NUL := by
    rw [hm1, hfile, get_append_zero]
  have hcstr : cstr (pre ++ (before ++ NUL :: (after ++ NUL :: rest)))
      (pre.length + before.length + 1 + ws.length) = f := by
    rw [hm1, hfile, cstr_append _ f (NUL :: rest) hwsf.2 rfl]
  obtain ⟨f1, hr1, _, hr3⟩ := rlatw_spec [] f [] hwsf.2
  simp only [List.nil_append, List.length_nil] at hr1 hr3
  unfold run_extern_cmd
  simp only [hstrchr, hset, hdrop, takeWhile_space_parts after rest hafter, hws, hget]
  cases hfc : f with
  | nil => simp
  | cons x xs =>
    have hx : x ≠ NUL := fun h => hwsf.2 (by rw [hfc, h]; simp)
    have hxb : (x == NUL) = false := by simpa using hx
    rw [← hfc]
    have hne : f ≠ [] := by rw [hfc]; simp
    simp only [hfc, List.cons_append, List.headD_cons, hxb, Bool.false_eq_true, if_false]
    simp only [← hfc, hne, if_false]
    unfold strchr
    rw [hcstr]
    by_cases hsp : ' ' ∈ f
    · simp [hsp]
    · simp only [hsp, if_false, Option.isSome_none, Bool.false_eq_true]
      rw [hr1, hr3]

/-! ## The dispatcher and the built-in handler -/

/-- The first `strtok` on a copy of a command group. -/
theorem strtok_copy (g : Str) (hg : IsCStr g) :
    (tokens space g = [] ∧ ∃ k, strtok (g ++ [NUL]) 0 ' ' = ⟨none, g ++ [NUL], k⟩) ∨
    (∃ k w pre1 g1, tokens space g = w :: tokens space g1 ∧
      strtok (g ++ [NUL]) 0 ' ' = ⟨some k, pre1 ++ (g1 ++ [NUL]), pre1.length⟩ ∧ IsCStr g1 ∧
      w ≠ [] ∧
      (∀ g2 : List Char, (g1 = [] → g2 = []) → cstr (pre1 ++ (g2 ++ [NUL])) k = w)) := by
  rcases strtok_step ' ' space_ne_nul (g ++ [NUL]) [] g [] 0 rfl rfl hg with
    ⟨ht, k, h1⟩ | ⟨k, w, pre1, g1, ht, h1, hg1, _, hne, _, hc, _, _, _⟩
  · exact Or.inl ⟨ht, 0 + k, h1⟩
  · refine Or.inr ⟨0 + k, w, pre1, g1, ht, h1, hg1, hne, hc⟩

theorem dispatch_spec (m : Mem) (p : Nat) (w : Str) (ws : List Str)
    (h : tokens space (cstr m p) = w :: ws) :
    dispatch m p = some (if w = "exit".toList ∨ w = "cd".toList ∨ w = "path".toList
      then Dispatch.builtin else Dispatch.external) := by
  rcases strtok_copy (cstr m p) (cstr_isCStr m p) with
    ⟨ht, _⟩ | ⟨k, w1, pre1, g1, ht, h1, _, _, hc⟩
  · rw [ht] at h; simp at h
  · rw [ht] at h
    simp only [List.cons.injEq] at h
    unfold dispatch
    simp only [h1, Option.map_some', hc g1 (fun h => h), check_builtin_cmd, h.1]
    simp [or_assoc]

theorem dispatch_empty (m : Mem) (p : Nat) (h : tokens space (cstr m p) = []) :
    dispatch m p = none := by
  rcases strtok_copy (cstr m p) (cstr_isCStr m p) with
    ⟨_, k, h1⟩ | ⟨k, w1, pre1, g1, ht, _⟩
  · unfold dispatch
    simp [h1, check_builtin_cmd]
  · rw [ht] at h; simp at h

/-- The built-in handler on a command group with tokens `w :: ws`. -/
theorem run_builtin_spec (env : Env) (m : Mem) (p : Nat) (w : Str) (ws : List Str)
    (h : tokens space (cstr m p) = w :: ws) :
    run_builtin_cmd env m p =
      if w = "exit".toList ∧ cstr m p = w then ⟨0, [], none, none, free_exit p CHILD_EXIT_REQUEST⟩
      else if w = "cd".toList then cd_args env p ws
      else if w = "path".toList then
        if !env.write [MESSAGE_TYPE_PATH] then
          system_error_exit ⟨0, [], none, none, Exit.returned⟩ p
        else ⟨0, [MESSAGE_TYPE_PATH], none, none, Exit.returned⟩
      else ⟨1, [], none, none, Exit.returned⟩ := by
  rcases strtok_copy (cstr m p) (cstr_isCStr m p) with
    ⟨ht, _⟩ | ⟨k, w1, pre1, g1, ht, h1, hg1, _, hc⟩
  · rw [ht] at h; simp at h
  · rw [ht] at h
    simp only [List.cons.injEq] at h
    obtain ⟨hw, hws⟩ := h
    subst hw
    unfold run_builtin_cmd
    simp only [h1, hc g1 (fun h => h)]
    by_cases hex : w1 = "exit".toList ∧ cstr m p = w1
    · have e1 : (w1 == "exit".toList) = true := by simp [hex.1]
      have e2 : (cstr m p == w1) = true := by simp [hex.2]
      rw [if_pos hex]
      simp only [e1, e2, Bool.and_self, if_true]
    · have e12 : (w1 == "exit".toList && cstr m p == w1) = false := by
        simpa using hex
      rw [if_neg hex]
      simp only [e12, Bool.false_eq_true, if_false]
      by_cases hcd : w1 = "cd".toList
      · have e3 : (w1 == "cd".toList) = true := by simp [hcd]
        rw [if_pos hcd]
        simp only [e3, if_true]
        rcases strtok_step ' ' space_ne_nul _ pre1 g1 [] _ rfl rfl hg1 with
          ⟨ht2, k2, h2⟩ | ⟨k2, w2, pre2, g2, ht2, h2, hg2, _, _, _, hc2, _, _, _⟩
        · rw [show tokens space g1 = [] from ht2] at hws
          subst hws
          simp only [h2, cd_args]
        · rw [show tokens space g1 = w2 :: tokens space g2 from ht2] at hws
          simp only [h2]
          rcases strtok_step ' ' space_ne_nul _ pre2 g2 [] _ rfl rfl hg2 with
            ⟨ht3, k3, h3⟩ | ⟨k3, w3, pre3, g3, ht3, h3, _⟩
          · rw [show tokens space g2 = [] from ht3] at hws
            subst hws
            simp only [h3, Option.isNone_none, if_true, hc2 g2 (fun h => h), cd_args]
          · rw [show tokens space g2 = w3 :: tokens space g3 from ht3] at hws
            subst hws
            simp only [h3, Option.isNone_some, Bool.false_eq_true, if_false, cd_args]
      · have e3 : (w1 == "cd".toList) = false := by simpa using hcd
        rw [if_neg hcd]
        simp only [e3, Bool.false_eq_true, if_false]
        by_cases hp : w1 = "path".toList
        · have e4 : (w1 == "path".toList) = true := by simp [hp]
          rw [if_pos hp]
          simp only [e4, if_true]
        · have e4 : (w1 == "path".toList) = false := by simpa using hp
          rw [if_neg hp]
          simp only [e4, Bool.false_eq_true, if_false]

/-! ## Resolution against the table -/

theorem resolve_some_iff (access : Str → Bool) (p : Str) : ∀ (tbl : List Str) (c : Str),
    resolve access tbl p = some c ↔
      ∃ (i : Nat) (d : Str), tbl[i]? = some d ∧ c = executable_path d p ∧ access c = true ∧
        ∀ (j : Nat) (e : Str), j < i → tbl[j]? = some e →
          access (executable_path e p) = false := by
  intro tbl
  induction tbl with
  | nil => intro c; simp [resolve]
  | cons d rest ih =>
    intro c
    by_cases hd : access (executable_path d p) = true
    · simp only [resolve, hd, if_true, Option.some.injEq]
      constructor
      · intro h
        exact ⟨0, d, by simp, h.symm, by rw [← h]; exact hd, by intro j e hj; omega⟩
      · rintro ⟨i, e, hi, hc, _, hlt⟩
        cases i with
        | zero =>
          simp only [List.getElem?_cons_zero, Option.some.injEq] at hi
          rw [hc, hi]
        | succ i =>
          have := hlt 0 d (by omega) (by simp)
          rw [hd] at this
          exact absurd this (by simp)
    · have hd1 : access (executable_path d p) = false := by simpa using hd
      simp only [resolve, hd1, Bool.false_eq_true, if_false]
      rw [ih c]
      constructor
      · rintro ⟨i, e, hi, hc, ha, hlt⟩
        refine ⟨i + 1, e, by simpa using hi, hc, ha, ?_⟩
        intro j e1 hj he1
        cases j with
        | zero =>
          simp only [List.getElem?_cons_zero, Option.some.injEq] at he1
          rw [← he1]; exact hd1
        | succ j => exact hlt j e1 (by omega) (by simpa using he1)
      · rintro ⟨i, e, hi, hc, ha, hlt⟩
        cases i with
        | zero =>
          simp only [List.getElem?_cons_zero, Option.some.injEq] at hi
          rw [hc, ← hi, hd1] at ha
          exact absurd ha (by simp)
        | succ i =>
          refine ⟨i, e, by simpa using hi, hc, ha, ?_⟩
          intro j e1 hj he1
          exact hlt (j + 1) e1 (by omega) (by simpa using he1)

theorem resolve_none_iff (access : Str → Bool) (p : Str) : ∀ (tbl : List Str),
    resolve access tbl p = none ↔ ∀ d ∈ tbl, access (executable_path d p) = false := by
  intro tbl
  induction tbl with
  | nil => simp [resolve]
  | cons d rest ih =>
    by_cases hd : access (executable_path d p) = true
    · simp [resolve, hd]
    · have hd1 : access (executable_path d p) = false := by simpa using hd
      simp [resolve, hd1, ih]

theorem executable_path_short (d p : Str) (h : (d ++ '/' :: p).length ≤ 511) :
    executable_path d p = d ++ '/' :: p := by
  unfold executable_path
  exact List.take_of_length_le h

/-- The external launcher on a command group without redirection whose
tokens are `p :: args`. -/
theorem run_extern_tokens (env : Env) (tbl : List Str) (pre g rest : List Char) (p : Str)
    (args : List Str) (hg : IsCStr g) (hr : '>' ∉ g) (ht : tokens space g = p :: args)
    (hn : args.length < 511) :
    run_extern_cmd env tbl (pre ++ (g ++ NUL :: rest)) pre.length =
      match resolve env.access tbl p with
      | none => ⟨1, [], none, some (p :: args), free_exit pre.length 0⟩
      | some path =>
        if env.execv path (p :: args) then
          ⟨0, [], none, some (p :: args), Exit.execed path (p :: args)⟩
        else system_error_exit ⟨0, [], none, some (p :: args), Exit.returned⟩ pre.length := by
  rw [run_extern_plain env tbl pre g rest hg hr, launch_spec env tbl pre g rest _ hg, ht]
  have : ¬ 512 ≤ (p :: args).length := by simp only [List.length_cons]; omega
  simp only [this, if_false]

theorem split_at_length (sep : Char → Bool) : ∀ s : Str,
    (split_at sep s).length = s.countP sep + 1 := by
  intro s
  induction s with
  | nil => simp [split_at]
  | cons c cs ih =>
    by_cases hc : sep c = true
    · simp [split_at, hc, ih]
    · have hc1 : sep c = false := by simpa using hc
      simp only [split_at, hc1, Bool.false_eq_true, if_false]
      cases h : split_at sep cs with
      | nil => exact absurd h (split_at_ne_nil sep cs)
      | cons g gs =>
        rw [h] at ih
        simp [List.countP_cons, hc1, ← ih]

theorem tokens_length_le_split (sep : Char → Bool) (s : Str) :
    (tokens sep s).length ≤ s.countP sep + 1 := by
  rw [← split_at_length]
  exact List.length_filter_le _ _

theorem tokens_ne_nil (d : Char) (g : Str) (c : Char) (hc : c ∈ g) (hd : c ≠ d) :
    tokens (fun x => x == d) g ≠ [] := by
  intro h
  rcases tokens_shape d g with ⟨k, hk, _⟩ | ⟨k, w, _, _, _, ht⟩ | ⟨k, w, g1, _, _, _, ht⟩
  · rw [hk] at hc
    exact hd (List.eq_of_mem_replicate hc)
  · rw [ht] at h; simp at h
  · rw [ht] at h; simp at h

/-- For a text that neither starts nor ends with a space, holding a space is
having two tokens or more. -/
theorem space_mem_iff (f : Str) (hhead : ∀ c, f.head? = some c → c ≠ ' ')
    (hlast : ∀ c, f.getLast? = some c → c ≠ ' ') :
    ' ' ∈ f ↔ 2 ≤ (tokens space f).length := by
  rcases tokens_shape ' ' f with ⟨k, hk, ht⟩ | ⟨k, w, hk, hne, hw, ht⟩ | ⟨k, w, g1, hk, hne, hw, ht⟩
  · cases k with
    | zero =>
      simp only [List.replicate_zero] at hk
      rw [show tokens space f = [] from ht, hk]
      simp
    | succ k =>
      rw [hk, List.replicate_succ] at hhead
      exact absurd rfl (hhead ' ' (by simp))
  · cases k with
    | zero =>
      simp only [List.replicate_zero, List.nil_append] at hk
      rw [show tokens space f = [w] from ht, hk]
      constructor
      · intro h; exact absurd rfl (hw ' ' h)
      · intro h; simp at h
    | succ k =>
      rw [hk, List.replicate_succ] at hhead
      exact absurd rfl (hhead ' ' (by simp))
  · have hmem : ' ' ∈ f := by rw [hk]; simp
    have hg1 : tokens space g1 ≠ [] := by
      cases hg : g1 with
      | nil =>
        rw [hg] at hk
        rw [hk] at hlast
        exact absurd rfl (hlast ' ' (by simp))
      | cons x xs =>
        have hl : f.getLast? = (x :: xs).getLast? := by
          rw [hk, hg, List.getLast?_append_of_ne_nil _ (by simp), List.getLast?_cons_cons]
        obtain ⟨y, hy⟩ : ∃ y, (x :: xs).getLast? = some y := by
          rw [List.getLast?_eq_getLast _ (by simp)]; exact ⟨_, rfl⟩
        have hy1 : y ∈ x :: xs := by
          obtain ⟨ys, hys⟩ := List.getLast?_eq_some_iff.1 hy
          rw [hys]; simp
        exact tokens_ne_nil ' ' (x :: xs) y hy1 (hlast y (hl.trans hy))
    rw [show tokens space f = w :: tokens space g1 from ht]
    constructor
    · intro _
      cases htk : tokens space g1 with
      | nil => exact absurd htk hg1
      | cons a as => simp
    · intro _; exact hmem

/-! ## The supervisor -/

theorem wait_none_iff : ∀ statuses : List WaitStatus,
    wait_and_check_child_exit_status statuses = none ↔
      ∀ st ∈ statuses, st ≠ WaitStatus.exited CHILD_SYSTEM_ERROR ∧
        st ≠ WaitStatus.exited CHILD_EXIT_REQUEST := by
  intro statuses
  induction statuses with
  | nil => simp [wait_and_check_child_exit_status]
  | cons st rest ih =>
    cases st with
    | signaled => simp [wait_and_check_child_exit_status, ih]
    | exited code =>
      by_cases h1 : code = CHILD_SYSTEM_ERROR
      · simp [wait_and_check_child_exit_status, h1]
      · by_cases h2 : code = CHILD_EXIT_REQUEST
        · subst h2
          simp [wait_and_check_child_exit_status, h1]
        · simp [wait_and_check_child_exit_status, h1, h2, ih]

theorem wait_append (pre : List WaitStatus) (post : List WaitStatus)
    (h : wait_and_check_child_exit_status pre = none) :
    wait_and_check_child_exit_status (pre ++ post) = wait_and_check_child_exit_status post := by
  induction pre with
  | nil => rfl
  | cons st rest ih =>
    cases st with
    | signaled =>
      simp only [wait_and_check_child_exit_status] at h
      rw [List.cons_append]
      simp only [wait_and_check_child_exit_status]
      exact ih h
    | exited code =>
      simp only [wait_and_check_child_exit_status] at h
      by_cases h1 : code = CHILD_SYSTEM_ERROR
      · simp [h1] at h
      · by_cases h2 : code = CHILD_EXIT_REQUEST
        · subst h2
          simp [h1] at h
        · simp only [h1, h2, if_false] at h
          rw [List.cons_append]
          simp only [wait_and_check_child_exit_status, h1, h2, if_false]
          exact ih h

theorem supervise_spec (pipes : List (List Char)) (o : Owner) :
    (∀ pre post : List WaitStatus,
      (∀ st ∈ pre, st ≠ WaitStatus.exited CHILD_SYSTEM_ERROR ∧
        st ≠ WaitStatus.exited CHILD_EXIT_REQUEST) →
      supervise (pre ++ WaitStatus.exited CHILD_SYSTEM_ERROR :: post) pipes o = Shell.exits 1 ∧
      supervise (pre ++ WaitStatus.exited CHILD_EXIT_REQUEST :: post) pipes o = Shell.exits 0) ∧
    (∀ statuses : List WaitStatus,
      (∀ st ∈ statuses, st ≠ WaitStatus.exited CHILD_SYSTEM_ERROR ∧
        st ≠ WaitStatus.exited CHILD_EXIT_REQUEST) →
      supervise statuses pipes o =
        match check_child_message_and_close_pipes pipes o with
        | none => Shell.undefined
        | some o1 => Shell.continues o1) := by
  refine ⟨?_, ?_⟩
  · intro pre post h
    have hp := (wait_none_iff pre).2 h
    unfold supervise
    rw [wait_append pre _ hp, wait_append pre _ hp]
    simp [wait_and_check_child_exit_status, CHILD_SYSTEM_ERROR, CHILD_EXIT_REQUEST]
  · intro statuses h
    unfold supervise
    rw [(wait_none_iff statuses).2 h]

/-! ## Workers -/

/-- The worker of a command group whose first token is `exit`. -/
theorem worker_exit (env : Env) (sp : Option (List Str)) (m : Mem) (p : Nat) (ws : List Str)
    (h : tokens space (cstr m p) = "exit".toList :: ws) :
    cmd_process_child env sp m p =
      if cstr m p = "exit".toList then ⟨0, [], none, none, free_exit p CHILD_EXIT_REQUEST⟩
      else ⟨1, [], none, none, free_exit p 0⟩ := by
  unfold cmd_process_child
  rw [dispatch_spec m p _ ws h, run_builtin_spec env m p _ ws h]
  by_cases hx : cstr m p = "exit".toList
  · simp only [hx, if_true, and_self, true_or]
    cases p <;> simp [free_exit]
  · simp only [hx, and_false, if_false, true_or, if_true]
    simp

/-- The worker of a command group whose first token is `cd`. -/
theorem worker_cd (env : Env) (sp : Option (List Str)) (m : Mem) (p : Nat) (args : List Str)
    (h : tokens space (cstr m p) = "cd".toList :: args) :
    (cmd_process_child env sp m p).pipe = (cd_args env p args).pipe ∧
    (cmd_process_child env sp m p).errors = (cd_args env p args).errors := by
  unfold cmd_process_child
  rw [dispatch_spec m p _ args h, run_builtin_spec env m p _ args h]
  simp only [true_or, or_true, if_true]
  have hne : ¬ ("cd".toList = "exit".toList ∧ cstr m p = "cd".toList) := by
    intro hh; exact absurd hh.1 (by decide)
  rw [if_neg hne]
  constructor <;> split <;> rfl

theorem dropWhile_head_not_space (s : Str) :
    ∀ c, (s.dropWhile isspace).head? = some c → isspace c = false := by
  intro c hc
  cases hf : s.dropWhile isspace with
  | nil => rw [hf] at hc; simp at hc
  | cons x xs =>
    rw [hf] at hc
    simp only [List.head?_cons, Option.some.injEq] at hc
    have := List.head_dropWhile_not isspace s (by rw [hf]; simp)
    simp only [hf, List.head_cons] at this
    rw [← hc]; exact this

theorem trim_eq_nil_iff (s : Str) : s.dropWhile isspace = [] ↔ trim s = [] := by
  unfold trim
  constructor
  · intro h; rw [h]; rfl
  · intro h
    cases hf : s.dropWhile isspace with
    | nil => rfl
    | cons x xs =>
      rw [List.rdropWhile_eq_nil_iff] at h
      have h1 := h x (by rw [hf]; simp)
      have h2 := dropWhile_head_not_space s x (by rw [hf]; rfl)
      rw [h2] at h1
      exact absurd h1 (by simp)

theorem trim_no_trailing (s : Str) (hlast : ∀ c, s.getLast? = some c → isspace c = false) :
    trim s = s.dropWhile isspace ∧
      ∀ c, (s.dropWhile isspace).getLast? = some c → isspace c = false := by
  have hsplit := List.takeWhile_append_dropWhile isspace s
  have hl : ∀ c, (s.dropWhile isspace).getLast? = some c → isspace c = false := by
    intro c hc
    apply hlast
    have hne : s.dropWhile isspace ≠ [] := by intro h; rw [h] at hc; simp at hc
    rw [← hsplit, List.getLast?_append_of_ne_nil _ hne]
    exact hc
  refine ⟨?_, hl⟩
  unfold trim
  rw [List.rdropWhile_eq_self_iff]
  intro hne
  have := hl _ (List.getLast?_eq_getLast _ hne)
  simp [this]

theorem not_space_of_not_isspace {c : Char} (h : isspace c = false) : c ≠ ' ' := by
  intro hc
  rw [hc] at h
  exact absurd h (by decide)

/-- For a command group without trailing whitespace, the text after the
marker holds a space past its leading whitespace exactly when it has two
tokens or more. -/
theorem redirect_space_iff (after : Str) (hlast : ∀ c, after.getLast? = some c → isspace c = false) :
    ' ' ∈ after.dropWhile isspace ↔ 2 ≤ (tokens space (trim after)).length := by
  obtain ⟨h1, h2⟩ := trim_no_trailing after hlast
  rw [h1]
  apply space_mem_iff
  · intro c hc; exact not_space_of_not_isspace (dropWhile_head_not_space after c hc)
  · intro c hc; exact not_space_of_not_isspace (h2 c hc)

theorem system_error_exit_opened (w : Worker) (p : Nat) :
    (system_error_exit w p).opened = w.opened := by
  unfold system_error_exit; split <;> rfl

theorem system_error_exit_argv (w : Worker) (p : Nat) :
    (system_error_exit w p).argv = w.argv := by
  unfold system_error_exit; split <;> rfl

theorem launch_opened (env : Env) (sp : List Str) (pre g rest : List Char) (w : Worker)
    (hg : IsCStr g) :
    (launch env sp (pre ++ (g ++ NUL :: rest)) pre.length w).opened = w.opened := by
  rw [launch_spec env sp pre g rest w hg]
  split
  · rfl
  · split
    · rfl
    · rfl
    · split
      · rfl
      · split
        · rfl
        · rw [system_error_exit_opened]

theorem launch_argv (env : Env) (sp : List Str) (pre g rest : List Char) (w : Worker)
    (hg : IsCStr g) :
    (launch env sp (pre ++ (g ++ NUL :: rest)) pre.length w).argv
      = if 512 ≤ (tokens space g).length then w.argv else some (tokens space g) := by
  rw [launch_spec env sp pre g rest w hg]
  split
  · rfl
  · split
    · rename_i h; simp [h]
    · rename_i h; simp [h]
    · rename_i h
      rw [h]
      split
      · rfl
      · split
        · rfl
        · rw [system_error_exit_argv]

/-- What `run_extern_cmd` does with a command group `before > after`. -/
theorem redirect_spec (env : Env) (sp : List Str) (pre before after rest : List Char)
    (hg : IsCStr (before ++ '>' :: after)) (hb : '>' ∉ before) :
    ((after.dropWhile isspace = [] ∨ ' ' ∈ after.dropWhile isspace) →
      run_extern_cmd env sp (pre ++ (before ++ '>' :: after ++ NUL :: rest)) pre.length
        = ⟨1, [], none, none, free_exit pre.length 0⟩) ∧
    (¬ (after.dropWhile isspace = [] ∨ ' ' ∈ after.dropWhile isspace) →
      (run_extern_cmd env sp (pre ++ (before ++ '>' :: after ++ NUL :: rest)) pre.length).opened
        = some (trim after) ∧
      ((run_extern_cmd env sp (pre ++ (before ++ '>' :: after ++ NUL :: rest)) pre.length).argv
          = none ∨
        (run_extern_cmd env sp (pre ++ (before ++ '>' :: after ++ NUL :: rest)) pre.length).argv
          = some (tokens space before)) ∧
      (env.creat (trim after) = true → env.dup2 = true → (tokens space before).length < 512 →
        (run_extern_cmd env sp (pre ++ (before ++ '>' :: after ++ NUL :: rest)) pre.length).argv
          = some (tokens space before))) := by
  have hspec := run_extern_redirect env sp pre before after rest hg hb
  have hbefore := (isCStr_parts hg).1
  have ho := launch_opened env sp pre before (after ++ NUL :: rest)
    ⟨0, [], some (trim after), none, Exit.returned⟩ hbefore
  have ha := launch_argv env sp pre before (after ++ NUL :: rest)
    ⟨0, [], some (trim after), none, Exit.returned⟩ hbefore
  constructor
  · intro h
    rw [hspec]
    rcases h with h | h
    · simp [h]
    · by_cases h0 : after.dropWhile isspace = []
      · simp [h0]
      · simp [h0, h]
  · intro h
    have h0 : ¬ after.dropWhile isspace = [] := fun x => h (Or.inl x)
    have h1 : ¬ ' ' ∈ after.dropWhile isspace := fun x => h (Or.inr x)
    rw [hspec]
    simp only [h0, h1, if_false]
    by_cases hc : env.creat (trim after) = true
    · by_cases hd : env.dup2 = true
      · simp only [hc, hd, Bool.not_true, Bool.false_eq_true, if_false, ho, ha]
        by_cases hn : 512 ≤ (tokens space before).length
        · simp only [hn, if_true]
          exact ⟨trivial, Or.inl trivial, fun _ _ hlt => absurd hn (by omega)⟩
        · simp only [hn, if_false]
          exact ⟨trivial, Or.inr trivial, fun _ _ _ => trivial⟩
      · have hd1 : env.dup2 = false := by simpa using hd
        simp only [hc, hd1, Bool.not_true, Bool.not_false, Bool.false_eq_true, if_false, if_true,
          system_error_exit_opened, system_error_exit_argv]
        exact ⟨trivial, Or.inl trivial, fun _ h2 _ => absurd h2 (by simp)⟩
    · have hc1 : env.creat (trim after) = false := by simpa using hc
      simp only [hc1, Bool.not_false, if_true, system_error_exit_opened, system_error_exit_argv]
      exact ⟨trivial, Or.inl trivial, fun h2 _ _ => absurd h2 (by simp)⟩

theorem drain_path (line rest : List Char) (tbl tbl1 : List Str) (chdirs : List Str)
    (h : (modify_path (line ++ NUL :: rest) 0 (some tbl)).map Prod.snd = some tbl1) :
    (check_child_message_and_close_pipes [[MESSAGE_TYPE_PATH]]
        ⟨line ++ NUL :: rest, some tbl, chdirs⟩).map (fun o => (o.shell_path, o.chdirs))
      = some (some tbl1, chdirs) := by
  cases hm : modify_path (line ++ NUL :: rest) 0 (some tbl) with
  | none => rw [hm] at h; simp at h
  | some r =>
    rw [hm] at h
    simp only [Option.map_some', Option.some.injEq] at h
    have hne : (MESSAGE_TYPE_PATH = MESSAGE_TYPE_CD) = False := by
      simp only [eq_iff_iff, iff_false]; decide
    simp only [check_child_message_and_close_pipes, hne, if_false, if_true, hm]
    simp [h]

/-- The worker of a command group whose first token is `path`. -/
theorem worker_path (env : Env) (sp : Option (List Str)) (m : Mem) (p : Nat) (args : List Str)
    (h : tokens space (cstr m p) = "path".toList :: args) :
    cmd_process_child env sp m p =
      if env.write [MESSAGE_TYPE_PATH] = true then ⟨0, [MESSAGE_TYPE_PATH], none, none, free_exit p 0⟩
      else system_error_exit ⟨0, [], none, none, Exit.returned⟩ p := by
  unfold cmd_process_child
  rw [dispatch_spec m p _ args h, run_builtin_spec env m p _ args h]
  have h1 : ¬ ("path".toList = "exit".toList ∧ cstr m p = "path".toList) := by
    intro hh; exact absurd hh.1 (by decide)
  have h2 : ¬ ("path".toList = "cd".toList) := by decide
  rw [if_neg h1, if_neg h2]
  simp only [or_true, if_true]
  by_cases hw : env.write [MESSAGE_TYPE_PATH] = true
  · simp [hw]
  · have hwf : env.write [MESSAGE_TYPE_PATH] = false := by simpa using hw
    simp only [hwf, Bool.not_false, if_true, Bool.false_eq_true, if_false]
    unfold system_error_exit
    split <;> simp

/-- The single-command branch of `main` on a line whose tokens are `path` and
`args`, when the pipe, the fork and the write succeed. -/
theorem single_path (env : Env) (program : Str → List Str → WaitStatus) (crash : WaitStatus)
    (tbl : List Str) (line rest : List Char) (args : List Str) (chdirs : List Str)
    (hline : IsLine line) (htok : tokens space line = "path".toList :: args)
    (hp : env.pipe 0 = true) (hf : env.fork 0 = true)
    (hw : env.write [MESSAGE_TYPE_PATH] = true) :
    (single_command env program crash ⟨line ++ NUL :: rest, some tbl, chdirs⟩).table
      = some (if args = [] then [[]] else args) := by
  have hc : cstr (line ++ NUL :: rest) 0 = line := cstr_append [] line (NUL :: rest) hline.1 rfl
  have hworker := worker_path env (some tbl) (line ++ NUL :: rest) 0 args (by rw [hc]; exact htok)
  rw [if_pos hw] at hworker
  have hd := drain_path line rest tbl _ chdirs (modify_path_table tbl line rest _ args hline htok)
  unfold single_command cmd_process
  simp only [hp, hf, Bool.not_true, Bool.false_eq_true, if_false, hworker]
  cases hdr : check_child_message_and_close_pipes [[MESSAGE_TYPE_PATH]]
      ⟨line ++ NUL :: rest, some tbl, chdirs⟩ with
  | none => rw [hdr] at hd; simp at hd
  | some o1 =>
    rw [hdr] at hd
    simp only [Option.map_some', Option.some.injEq, Prod.mk.injEq] at hd
    have hs : supervise [wait_status program crash (free_exit 0 0)] [[MESSAGE_TYPE_PATH]]
        ⟨line ++ NUL :: rest, some tbl, chdirs⟩ = Shell.continues o1 := by
      unfold supervise
      simp [free_exit, wait_status, wait_and_check_child_exit_status, CHILD_SYSTEM_ERROR,
        CHILD_EXIT_REQUEST, hdr]
    rw [hs]
    exact hd.1

/-- The single-command branch of `main` on a line whose first token is
`exit`, the pipe and the fork succeeding: the line `exit` ends the shell with
status 0; with anything after `exit` the worker reports one user error, sends
nothing and exits with status 0, and the shell goes on unchanged. -/
theorem single_exit (env : Env) (program : Str → List Str → WaitStatus) (crash : WaitStatus)
    (o : Owner) (ws : List Str) (h : tokens space (cstr o.buffer 0) = "exit".toList :: ws)
    (hp : env.pipe 0 = true) (hf : env.fork 0 = true) :
    (cstr o.buffer 0 = "exit".toList →
      cmd_process_child env o.shell_path o.buffer 0
        = ⟨0, [], none, none, Exit.status CHILD_EXIT_REQUEST⟩ ∧
      single_command env program crash o = Shell.exits 0) ∧
    (cstr o.buffer 0 ≠ "exit".toList →
      cmd_process_child env o.shell_path o.buffer 0 = ⟨1, [], none, none, Exit.status 0⟩ ∧
      single_command env program crash o = Shell.continues o) := by
  have hw := worker_exit env o.shell_path o.buffer 0 ws h
  constructor
  · intro hx
    rw [if_pos hx] at hw
    refine ⟨hw, ?_⟩
    unfold single_command cmd_process
    simp only [hp, hf, Bool.not_true, Bool.false_eq_true, if_false, hw]
    simp [supervise, free_exit, wait_status, wait_and_check_child_exit_status,
      CHILD_SYSTEM_ERROR, CHILD_EXIT_REQUEST]
  · intro hx
    rw [if_neg hx] at hw
    refine ⟨hw, ?_⟩
    unfold single_command cmd_process
    simp only [hp, hf, Bool.not_true, Bool.false_eq_true, if_false, hw]
    simp [supervise, free_exit, wait_status, wait_and_check_child_exit_status,
      check_child_message_and_close_pipes, CHILD_SYSTEM_ERROR, CHILD_EXIT_REQUEST]

theorem cd_one_pipe (env : Env) (p : Nat) (b : Str) :
    (cd_one env p b).pipe =
      if env.chdir b = true ∧ env.write [MESSAGE_TYPE_CD] = true then
        (if env.write (b ++ [NUL]) = true then MESSAGE_TYPE_CD :: (b ++ [NUL])
          else [MESSAGE_TYPE_CD])
      else [] := by
  unfold cd_one system_error_exit
  cases env.chdir b <;> cases env.write [MESSAGE_TYPE_CD] <;> cases env.write (b ++ [NUL]) <;>
    simp <;> split <;> rfl

theorem cd_args_errors (env : Env) (p : Nat) (args : List Str) (h : args.length ≠ 1) :
    (cd_args env p args).errors = 1 ∧ (cd_args env p args).pipe = [] := by
  cases args with
  | nil => exact ⟨rfl, rfl⟩
  | cons b bs =>
    cases bs with
    | nil => simp at h
    | cons c cs => exact ⟨rfl, rfl⟩

/-- The table `main` starts with: `modify_path(INIT_SHELL_PATH, ..)` on the
`NULL` table. -/
theorem initial_table :
    (modify_path (buf "/bin") 0 none).map Prod.snd = some ["/bin".toList] := by
  decide

/-! ## The number of workers of a line -/

/-- The launching loop counts the tokens: when every `cmd_process` call
launches its worker, the loop ends with one worker for each token if they fit
in `pipes` and `children`, and otherwise reaches a call with `command_count`
equal to the size of the arrays. -/
theorem split_loop_count {α : Type} (fork1 : Mem → Nat → Nat → Option α)
    (hsome : ∀ m p c, ∃ x, fork1 m p c = some x) (cap fuel : Nat) :
    ∀ (g a w q rest : List Char) (acc : List α),
    IsCStr w → IsCStr g → (q = [NUL] ∨ (q = [] ∧ g = [])) →
    (tokens amp g).length < fuel →
    (acc.length + 1 + (tokens amp g).length ≤ cap →
      ∃ children m1, split_loop fork1 cap fuel (a ++ (w ++ q ++ (g ++ NUL :: rest)))
          (some a.length) (a.length + w.length + q.length) acc = Launched.done children m1 ∧
        children.length = acc.length + 1 + (tokens amp g).length) ∧
    (cap < acc.length + 1 + (tokens amp g).length →
      split_loop fork1 cap fuel (a ++ (w ++ q ++ (g ++ NUL :: rest)))
          (some a.length) (a.length + w.length + q.length) acc = Launched.overrun) := by
  induction fuel with
  | zero => intro g a w q rest acc _ _ _ h; omega
  | succ fuel ih =>
    intro g a w q rest acc hw hg hq hfuel
    have hform : ∃ tl, a ++ (w ++ q ++ (g ++ NUL :: rest)) = a ++ (w ++ NUL :: tl) ∧
        ∀ w1 : List Char, a ++ (w1 ++ NUL :: tl) = (a ++ (w1 ++ q)) ++ (g ++ NUL :: rest) := by
      rcases hq with rfl | ⟨rfl, rfl⟩
      · exact ⟨g ++ NUL :: rest, by simp, fun w1 => by simp⟩
      · exact ⟨rest, by simp, fun w1 => by simp⟩
    obtain ⟨tl, hm, hback⟩ := hform
    obtain ⟨w1, h1, h2, _⟩ := rlatw_spec a w tl hw
    by_cases hcap1 : cap ≤ acc.length
    · constructor
      · intro h; omega
      · intro _
        simp only [split_loop, hcap1, if_true]
    · obtain ⟨x, hx⟩ := hsome (a ++ (w1 ++ NUL :: tl)) a.length acc.length
      simp only [split_loop, hm, h1, hcap1, if_false, hx]
      have hsave : a.length + w.length + q.length = (a ++ (w1 ++ q)).length := by
        simp [h2, Nat.add_assoc]
      rcases strtok_layout '&' amp_ne_nul _ (a ++ (w1 ++ q)) g rest _ (hback w1) hsave hg with
        ⟨ht, k, hs⟩ | ⟨a2, w2, q2, g2, ht, hs, hq2, hw2, hg2, _, _⟩
      · rw [hs, show tokens amp g = [] from ht]
        constructor
        · intro _
          cases fuel <;>
            exact ⟨acc ++ [x], a ++ (w1 ++ NUL :: tl), by simp [split_loop], by simp⟩
        · intro h
          simp only [List.length_nil] at h
          omega
      · rw [hs]
        have hlen : (tokens amp g).length = (tokens amp g2).length + 1 := by
          rw [show tokens amp g = w2 :: tokens amp g2 from ht]; simp
        have hi := ih g2 a2 w2 q2 rest (acc ++ [x]) hw2 hg2 hq2 (by omega)
        simp only [List.length_append, List.length_singleton] at hi
        constructor
        · intro h
          obtain ⟨children, m1, e1, e2⟩ := hi.1 (by omega)
          exact ⟨children, m1, e1, by omega⟩
        · intro h
          exact hi.2 (by omega)

/-- The launching loop of `cmd_parse_processes` on a line, the pipes and the
forks succeeding: a worker for each of the tokens between the `&` when there
are at most `MAX_PARALLEL_COMMANDS`, and otherwise a call of `cmd_process`
with `command_count = MAX_PARALLEL_COMMANDS`, past the end of `pipes` and
`children`. -/
theorem launch_all_count (env : Env) (sp : Option (List Str)) (line rest : List Char)
    (hline : IsCStr line) (hp : ∀ c, env.pipe c = true) (hf : ∀ c, env.fork c = true) :
    ((tokens amp line).length ≤ MAX_PARALLEL_COMMANDS →
      ∃ children m1, launch_all env sp (line ++ NUL :: rest) = Launched.done children m1 ∧
        children.length = (tokens amp line).length) ∧
    (MAX_PARALLEL_COMMANDS < (tokens amp line).length →
      launch_all env sp (line ++ NUL :: rest) = Launched.overrun) := by
  have hsome : ∀ m p c, ∃ x, cmd_process env sp m p c = some x := by
    intro m p c
    exact ⟨cmd_process_child env sp m p, by simp [cmd_process, hp c, hf c]⟩
  unfold launch_all
  rcases strtok_layout '&' amp_ne_nul (line ++ NUL :: rest) [] line rest 0 rfl rfl hline with
    ⟨ht, k, hs⟩ | ⟨a2, w2, q2, g2, ht, hs, hq2, hw2, hg2, _, _⟩
  · simp only [hs]
    rw [show tokens amp line = [] from ht]
    constructor
    · intro _
      exact ⟨[], line ++ NUL :: rest, by simp [split_loop], rfl⟩
    · intro h
      simp at h
  · simp only [hs]
    have hlen : (tokens amp line).length = (tokens amp g2).length + 1 := by
      rw [show tokens amp line = w2 :: tokens amp g2 from ht]; simp
    have hle : (tokens amp line).length ≤ line.length :=
      tokens_length_le '&' line.length line (Nat.le_refl _)
    have hi := split_loop_count (cmd_process env sp) hsome MAX_PARALLEL_COMMANDS
      ((line ++ NUL :: rest).length + 1) g2 a2 w2 q2 rest [] hw2 hg2 hq2
      (by simp only [List.length_append, List.length_cons]; omega)
    simp only [List.length_nil] at hi
    constructor
    · intro h
      obtain ⟨children, m1, e1, e2⟩ := hi.1 (by omega)
      exact ⟨children, m1, e1, by omega⟩
    · intro h
      exact hi.2 (by omega)

/-! ## The claims -/

/-- C1. For every Search-Path Table and every line whose space-separated
tokens are `path` followed by the tokens `args`, `modify_path` applied to the
line buffer leaves the table equal to `args`, in order, when there is an
argument, and equal to the one-entry table holding the empty string when
there is none, whatever the table was before; the owner's draining of the
`ModifyPath` message of that line leaves the same table and the working
directory alone, and so does the whole single-command branch of `main` when
the pipe, the fork and the worker's write succeed. -/
theorem C1_path_replaces_table (tbl : List Str) (line rest : List Char) (args : List Str)
    (chdirs : List Str) (hline : IsLine line)
    (htok : tokens space line = "path".toList :: args) :
    (modify_path (line ++ NUL :: rest) 0 (some tbl)).map Prod.snd
      = some (if args = [] then [[]] else args) ∧
    (check_child_message_and_close_pipes [[MESSAGE_TYPE_PATH]]
        ⟨line ++ NUL :: rest, some tbl, chdirs⟩).map (fun o => (o.shell_path, o.chdirs))
      = some (some (if args = [] then [[]] else args), chdirs) ∧
    (∀ (env : Env) (program : Str → List Str → WaitStatus) (crash : WaitStatus),
      env.pipe 0 = true → env.fork 0 = true → env.write [MESSAGE_TYPE_PATH] = true →
      (single_command env program crash ⟨line ++ NUL :: rest, some tbl, chdirs⟩).table
        = some (if args = [] then [[]] else args)) :=
  ⟨modify_path_table tbl line rest _ args hline htok,
   drain_path line rest tbl _ chdirs (modify_path_table tbl line rest _ args hline htok),
   fun env program crash hp hf hw =>
     single_path env program crash tbl line rest args chdirs hline htok hp hf hw⟩

/-- C1 at the line `path /a /b` and a table of three entries. -/
theorem C1_path_replaces_table_witness :
    IsLine "path /a /b".toList ∧
    tokens space "path /a /b".toList = "path".toList :: ["/a".toList, "/b".toList] ∧
    (modify_path ("path /a /b".toList ++ NUL :: []) 0
        (some ["/bin".toList, "/usr/bin".toList, "/opt".toList])).map Prod.snd
      = some ["/a".toList, "/b".toList] :=
  ⟨by decide, by decide,
   (C1_path_replaces_table ["/bin".toList, "/usr/bin".toList, "/opt".toList]
      "path /a /b".toList [] ["/a".toList, "/b".toList] [] (by decide) (by decide)).1⟩

set_option maxRecDepth 100000 in
/-- C2 fails as stated: with a table entry of 510 characters, the candidate
`long_dir/prog` is not executable (the only executable path is the directory
itself, `long_dir/`), yet the resolution loop selects a path instead of
reporting command-not-found: it tests the first 511 characters of the
candidate. -/
theorem C2_counterexample :
    (long_dir ++ '/' :: "prog".toList == long_dir ++ ['/']) = false ∧
    resolve (fun s => s == long_dir ++ ['/']) [long_dir] "prog".toList
      = some (long_dir ++ ['/']) := by
  decide

/-- C2, amended. For every table, program name `p` and executability
predicate, the resolution loop tests, in table order, the candidates
`executable_path d p`, the first 511 characters of `d/p` (all of `d/p` when
it has at most 511 characters); it selects the first that is executable and
finds none exactly when none is executable. On a command group without
redirection whose tokens are `p` and at most 510 arguments, the launcher
then runs the selected path with those tokens as arguments, and when none is
found it reports one user error, runs nothing and, for a group at the start
of the line buffer, exits with status 0. With the table `/a`, `/b` and both
`/a/prog` and `/b/prog` executable, `/a/prog` is selected. -/
theorem C2_first_match (env : Env) (tbl : List Str) (p : Str) :
    (∀ c, resolve env.access tbl p = some c ↔
      ∃ (i : Nat) (d : Str), tbl[i]? = some d ∧ c = executable_path d p ∧ env.access c = true ∧
        ∀ (j : Nat) (e : Str), j < i → tbl[j]? = some e →
          env.access (executable_path e p) = false) ∧
    (resolve env.access tbl p = none ↔ ∀ d ∈ tbl, env.access (executable_path d p) = false) ∧
    (∀ d : Str, (d ++ '/' :: p).length ≤ 511 → executable_path d p = d ++ '/' :: p) ∧
    (∀ (g rest : List Char) (args : List Str), IsCStr g → '>' ∉ g →
      tokens space g = p :: args → args.length < 511 →
      (resolve env.access tbl p = none →
        run_extern_cmd env tbl (g ++ NUL :: rest) 0
          = ⟨1, [], none, some (p :: args), Exit.status 0⟩) ∧
      (∀ c, resolve env.access tbl p = some c → env.execv c (p :: args) = true →
        run_extern_cmd env tbl (g ++ NUL :: rest) 0
          = ⟨0, [], none, some (p :: args), Exit.execed c (p :: args)⟩)) ∧
    resolve (fun s => s == "/a/prog".toList || s == "/b/prog".toList)
        ["/a".toList, "/b".toList] "prog".toList = some "/a/prog".toList := by
  refine ⟨resolve_some_iff env.access p tbl, resolve_none_iff env.access p tbl,
    fun d => executable_path_short d p, ?_, by decide⟩
  intro g rest args hg hr ht hn
  have h := run_extern_tokens env tbl [] g rest p args hg hr ht hn
  simp only [List.nil_append, List.length_nil] at h
  constructor
  · intro hnone
    rw [h, hnone]
    rfl
  · intro c hc hx
    rw [h, hc]
    simp [hx]

/-- C3 fails as stated: after `path` without arguments has left the table
with its one empty entry, the program name `prog` resolves to `/prog` when
that file is executable. -/
theorem C3_counterexample :
    (modify_path (buf "path") 0 (some ["/bin".toList])).map Prod.snd = some [[]] ∧
    resolve (fun s => s == "/prog".toList) [[]] "prog".toList = some "/prog".toList := by
  decide

/-- C3, amended. For every prior table, once `path` without arguments has
been applied the table is the one empty entry, and resolving a program name
`p` against it tests the single candidate `/p` (its first 511 characters):
the resolution fails exactly when that path is not executable. -/
theorem C3_empty_path_tests_root (tbl : List Str) (line rest : List Char)
    (access : Str → Bool) (p : Str) (hline : IsLine line)
    (htok : tokens space line = ["path".toList]) :
    (modify_path (line ++ NUL :: rest) 0 (some tbl)).map Prod.snd = some [[]] ∧
    (resolve access [[]] p = none ↔ access (('/' :: p).take 511) = false) ∧
    (∀ c, resolve access [[]] p = some c → c = ('/' :: p).take 511) := by
  refine ⟨?_, ?_, ?_⟩
  · have h := modify_path_table tbl line rest _ [] hline htok
    simpa using h
  · rw [resolve_none_iff]
    simp [executable_path]
  · intro c hc
    by_cases ha : access (executable_path [] p) = true
    · simp only [resolve, ha, if_true, Option.some.injEq] at hc
      rw [← hc]; rfl
    · simp [resolve, ha] at hc

/-- C3, amended, at the line `path`, the table `/bin` and the program `ls`
with no executable file at all. -/
theorem C3_empty_path_tests_root_witness :
    IsLine "path".toList ∧ tokens space "path".toList = ["path".toList] ∧
    (resolve (fun _ => false) [[]] "ls".toList = none ↔
      (fun _ => false) (('/' :: "ls".toList).take 511) = false) :=
  ⟨by decide, by decide,
   (C3_empty_path_tests_root ["/bin".toList] "path".toList [] (fun _ => false) "ls".toList
      (by decide) (by decide)).2.1⟩

/-- C4 fails on the code: on the line `ls & path /usr/bin` with the table
`/bin`, the command groups are `ls` and `path /usr/bin`, and the path change
of the second group, derived from its own text, is the table `/usr/bin`; the
owner drains the `ModifyPath` message of that group by re-parsing the line
buffer, which `strtok` has cut down to the first group `ls`, and goes on with
the one-entry table holding the empty string. The same happens to the second
of two `path` groups, and to the line as `getline` delivers it to `main`. -/
theorem C4_parallel_path_reparses_first_group :
    (command_groups (buf "ls & path /usr/bin")).list
      = some ["ls".toList, "path /usr/bin".toList] ∧
    (modify_path (buf "path /usr/bin") 0 (some ["/bin".toList])).map Prod.snd
      = some ["/usr/bin".toList] ∧
    (cmd_parse_processes (env_with ["/bin/ls"]) exit0 WaitStatus.signaled
      ⟨buf "ls & path /usr/bin", some ["/bin".toList], []⟩).table = some [[]] ∧
    (cmd_parse_processes (env_with ["/bin/ls"]) exit0 WaitStatus.signaled
      ⟨buf "path /a & path /b", some ["/bin".toList], []⟩).table = some [[]] ∧
    (main_line (env_with ["/bin/ls"]) exit0 WaitStatus.signaled
      ⟨buf "ls & path /usr/bin\n", some ["/bin".toList], []⟩).table = some [[]] := by
  decide

/-- C5 fails as stated: the line `a && b` has two separators and splits at
them into the three substrings `a`, the empty one and `b`, yet the splitting
loop hands on the two groups `a` and `b`. -/
theorem C5_counterexample :
    (split_at amp "a && b".toList).map trim = ["a".toList, [], "b".toList] ∧
    (command_groups (buf "a && b")).list = some ["a".toList, "b".toList] := by
  decide

/-- C5, amended. For every line with at most `MAX_PARALLEL_COMMANDS` groups,
the splitting loop produces, in order, exactly the non-empty substrings
obtained by splitting the line at every `&`, each stripped of leading and
trailing whitespace: an empty substring (between two adjacent separators,
before a leading or after a trailing one) is discarded, a substring of
whitespace only is kept as an empty group, and a line with `n` separators
yields at most `n + 1` groups. -/
theorem C5_splitter_groups (line rest : List Char) (hline : IsCStr line)
    (hcap : (tokens amp line).length ≤ MAX_PARALLEL_COMMANDS) :
    (command_groups (line ++ NUL :: rest)).list
      = some (((split_at amp line).filter (fun g => !g.isEmpty)).map trim) ∧
    ((split_at amp line).filter (fun g => !g.isEmpty)).length ≤ line.countP amp + 1 := by
  obtain ⟨m1, h⟩ := command_groups_spec line rest hline hcap
  refine ⟨?_, tokens_length_le_split amp line⟩
  rw [h]
  rfl

/-- C5, amended, at the line `a & & b &`: the groups `a`, the empty group and
`b`. -/
theorem C5_splitter_groups_witness :
    IsCStr "a & & b &".toList ∧
    (tokens amp "a & & b &".toList).length ≤ MAX_PARALLEL_COMMANDS ∧
    (command_groups ("a & & b &".toList ++ NUL :: [])).list
      = some ["a".toList, [], "b".toList] :=
  ⟨by decide, by decide,
   (C5_splitter_groups "a & & b &".toList [] (by decide) (by decide)).1.trans (by decide)⟩

/-- C6 fails as stated: the first whitespace-delimited token of the group
`cd<TAB>/tmp` is `cd`, yet the dispatcher decides external: it cuts the
command name at spaces only. -/
theorem C6_counterexample :
    tokens isspace "cd\t/tmp".toList = ["cd".toList, "/tmp".toList] ∧
    dispatch (buf "cd\t/tmp") 0 = some Dispatch.external := by
  decide

/-- C6, amended. For every command group that has a space-delimited token,
the dispatcher decides built-in when the first such token is exactly `exit`,
`cd` or `path`, and external otherwise. -/
theorem C6_dispatch (m : Mem) (p : Nat) (w : Str) (ws : List Str)
    (h : tokens space (cstr m p) = w :: ws) :
    dispatch m p = some (if w = "exit".toList ∨ w = "cd".toList ∨ w = "path".toList
      then Dispatch.builtin else Dispatch.external) :=
  dispatch_spec m p w ws h

/-- C6, amended, at the group `path /a`. -/
theorem C6_dispatch_witness :
    tokens space (cstr (buf "path /a") 0) = "path".toList :: ["/a".toList] ∧
    dispatch (buf "path /a") 0 = some Dispatch.builtin :=
  ⟨by decide, (C6_dispatch (buf "path /a") 0 "path".toList ["/a".toList] (by decide)).trans
    (by decide)⟩

/-- C7 fails on the code: on the line `ls & exit` the command groups are `ls`
and `exit`; the worker of the group `exit`, whose text starts at offset 4 of
the line buffer, reaches undefined behaviour (the `free` of that pointer in
`deallocate_string(buffer)`) instead of `_exit(CHILD_EXIT_REQUEST)`, and with
that worker ending abnormally the shell goes on, its table unchanged, also
from the line as `getline` delivers it to `main`. The same group alone on a
line, at offset 0, ends the shell with status 0. -/
theorem C7_exit_in_later_group :
    (command_groups (buf "ls & exit")).list = some ["ls".toList, "exit".toList] ∧
    (launch_all (env_with ["/bin/ls"]) (some ["/bin".toList]) (buf "ls & exit")).list.map
        (fun l => l.map (fun w => w.exit))
      = some [Exit.execed "/bin/ls".toList ["ls".toList], Exit.undefined] ∧
    (cmd_parse_processes (env_with ["/bin/ls"]) exit0 WaitStatus.signaled
      ⟨buf "ls & exit", some ["/bin".toList], []⟩).table = some ["/bin".toList] ∧
    (main_line (env_with ["/bin/ls"]) exit0 WaitStatus.signaled
      ⟨buf "ls & exit\n", some ["/bin".toList], []⟩).table = some ["/bin".toList] ∧
    main_line (env_with ["/bin/ls"]) exit0 WaitStatus.signaled
      ⟨buf "exit\n", some ["/bin".toList], []⟩ = Shell.exits 0 := by
  decide

/-- C8 fails as stated: the group `cd /tmp` has exactly one argument and the
worker's directory change succeeds, yet with the `write` to the control pipe
failing no message is written: the worker ends with a system error. -/
theorem C8_counterexample :
    tokens space (cstr (buf "cd /tmp") 0) = ["cd".toList, "/tmp".toList] ∧
    env_write_fails.chdir "/tmp".toList = true ∧
    cmd_process_child env_write_fails (some ["/bin".toList]) (buf "cd /tmp") 0
      = ⟨1, [], none, none, Exit.status CHILD_SYSTEM_ERROR⟩ := by
  decide

/-- C8, amended. For every command group whose first token is `cd`: the
message written to the control pipe is the `ChangeDirectory` tag followed by
the argument token `a` and its terminator if and only if the group has
exactly the one argument token `a`, the worker's own directory change to `a`
succeeds and both writes to the pipe succeed; with no argument or with two
or more the worker reports one user error and writes nothing to the pipe, and
the owner draining that pipe changes nothing. -/
theorem C8_cd_message (env : Env) (sp : Option (List Str)) (m : Mem) (p : Nat)
    (args : List Str) (h : tokens space (cstr m p) = "cd".toList :: args) :
    (∀ a : Str, (cmd_process_child env sp m p).pipe = MESSAGE_TYPE_CD :: (a ++ [NUL]) ↔
      (args = [a] ∧ env.chdir a = true ∧ env.write [MESSAGE_TYPE_CD] = true ∧
        env.write (a ++ [NUL]) = true)) ∧
    (args.length ≠ 1 →
      (cmd_process_child env sp m p).errors = 1 ∧ (cmd_process_child env sp m p).pipe = [] ∧
      ∀ o : Owner,
        check_child_message_and_close_pipes [(cmd_process_child env sp m p).pipe] o = some o) := by
  obtain ⟨hp, he⟩ := worker_cd env sp m p args h
  rw [hp, he]
  constructor
  · intro a
    cases args with
    | nil => simp [cd_args]
    | cons b bs =>
      cases bs with
      | cons c cs => simp [cd_args]
      | nil =>
        simp only [cd_args, cd_one_pipe]
        constructor
        · intro hab
          by_cases h12 : env.chdir b = true ∧ env.write [MESSAGE_TYPE_CD] = true
          · rw [if_pos h12] at hab
            by_cases h3 : env.write (b ++ [NUL]) = true
            · rw [if_pos h3] at hab
              simp only [List.cons.injEq, true_and] at hab
              have hba : b = a := List.append_cancel_right hab
              subst hba
              exact ⟨rfl, h12.1, h12.2, h3⟩
            · rw [if_neg h3] at hab
              simp at hab
          · rw [if_neg h12] at hab
            simp at hab
        · rintro ⟨hab, h1, h2, h3⟩
          simp only [List.cons.injEq, and_true] at hab
          subst hab
          rw [if_pos ⟨h1, h2⟩, if_pos h3]
  · intro hlen
    obtain ⟨h1, h2⟩ := cd_args_errors env p args hlen
    rw [h1, h2]
    exact ⟨rfl, rfl, fun o => rfl⟩

/-- C8, amended, at the group `cd /tmp` with every call succeeding. -/
theorem C8_cd_message_witness :
    tokens space (cstr (buf "cd /tmp") 0) = "cd".toList :: ["/tmp".toList] ∧
    (cmd_process_child (env_with []) none (buf "cd /tmp") 0).pipe
      = MESSAGE_TYPE_CD :: ("/tmp".toList ++ [NUL]) :=
  ⟨by decide,
   ((C8_cd_message (env_with []) none (buf "cd /tmp") 0 ["/tmp".toList] (by decide)).1
      "/tmp".toList).2 (by decide)⟩

/-- C9 fails as stated: in the group `ls > a<TAB>b` the text after the marker
has the two whitespace-delimited tokens `a` and `b`, yet the launcher does
not reject it: it opens the file `a<TAB>b` and runs `ls`. -/
theorem C9_counterexample :
    tokens isspace " a\tb".toList = ["a".toList, "b".toList] ∧
    cmd_process_child (env_with ["/bin/ls"]) (some ["/bin".toList]) (buf "ls > a\tb") 0
      = ⟨0, [], some "a\tb".toList, some ["ls".toList],
          Exit.execed "/bin/ls".toList ["ls".toList]⟩ := by
  decide

/-- C9, amended. For every command group `before > after`, `>` being its
first marker: the launcher rejects it (one user error, no file opened, no
argument vector built and, for a group at the start of the line buffer, exit
with status 0 and nothing else done) if and only if the text after the marker
is empty after trimming or, past its leading whitespace, holds a space
character; for a group without trailing whitespace the latter is having two
or more space-delimited tokens. Otherwise the file given to `open` is that
text trimmed, and the argument vector, once built, is the space-delimited
tokens of the text before the marker. -/
theorem C9_redirection (env : Env) (sp : List Str) (pre before after rest : List Char)
    (hg : IsCStr (before ++ '>' :: after)) (hb : '>' ∉ before) :
    ((run_extern_cmd env sp (pre ++ (before ++ '>' :: after ++ NUL :: rest)) pre.length).opened
        = none ↔
      (trim after = [] ∨ ' ' ∈ after.dropWhile isspace)) ∧
    ((trim after = [] ∨ ' ' ∈ after.dropWhile isspace) →
      (run_extern_cmd env sp (pre ++ (before ++ '>' :: after ++ NUL :: rest)) pre.length).errors
        = 1 ∧
      (run_extern_cmd env sp (pre ++ (before ++ '>' :: after ++ NUL :: rest)) pre.length).argv
        = none ∧
      (pre = [] →
        run_extern_cmd env sp (pre ++ (before ++ '>' :: after ++ NUL :: rest)) pre.length
          = ⟨1, [], none, none, Exit.status 0⟩)) ∧
    (¬ (trim after = [] ∨ ' ' ∈ after.dropWhile isspace) →
      (run_extern_cmd env sp (pre ++ (before ++ '>' :: after ++ NUL :: rest)) pre.length).opened
        = some (trim after) ∧
      ((run_extern_cmd env sp (pre ++ (before ++ '>' :: after ++ NUL :: rest)) pre.length).argv
          = none ∨
        (run_extern_cmd env sp (pre ++ (before ++ '>' :: after ++ NUL :: rest)) pre.length).argv
          = some (tokens space before)) ∧
      (env.creat (trim after) = true → env.dup2 = true → (tokens space before).length < 512 →
        (run_extern_cmd env sp (pre ++ (before ++ '>' :: after ++ NUL :: rest)) pre.length).argv
          = some (tokens space before))) ∧
    ((∀ c, after.getLast? = some c → isspace c = false) →
      (' ' ∈ after.dropWhile isspace ↔ 2 ≤ (tokens space (trim after)).length)) := by
  obtain ⟨h1, h2⟩ := redirect_spec env sp pre before after rest hg hb
  rw [← trim_eq_nil_iff]
  refine ⟨?_, ?_, h2, redirect_space_iff after⟩
  · constructor
    · intro ho
      by_contra hn
      rw [(h2 hn).1] at ho
      simp at ho
    · intro hc
      rw [h1 hc]
  · intro hc
    rw [h1 hc]
    refine ⟨rfl, rfl, ?_⟩
    intro hpre
    rw [hpre]
    rfl

/-- C9, amended, at the group `ls > out.txt`. -/
theorem C9_redirection_witness :
    IsCStr ("ls ".toList ++ '>' :: " out.txt".toList) ∧ '>' ∉ "ls ".toList ∧
    (run_extern_cmd (env_with ["/bin/ls"]) ["/bin".toList]
        ([] ++ ("ls ".toList ++ '>' :: " out.txt".toList ++ NUL :: [])) 0).opened
      = some "out.txt".toList :=
  ⟨by decide, by decide,
   ((C9_redirection (env_with ["/bin/ls"]) ["/bin".toList] [] "ls ".toList " out.txt".toList []
      (by decide) (by decide)).2.2.1 (by decide)).1.trans (by decide)⟩

/-- C10. For every sequence of worker statuses of one line, in launch order:
when the first worker that exited with `CHILD_SYSTEM_ERROR` (21) or
`CHILD_EXIT_REQUEST` (20) exited with 21 the shell terminates with status 1,
when it exited with 20 the shell terminates with status 0, whatever the
later workers did and whatever the control pipes hold, no message being
applied; when no worker exited with either status, workers killed by a
signal included, the shell continues with the state the draining of the
messages leaves. -/
theorem C10_supervisor (pipes : List (List Char)) (o : Owner) :
    (∀ pre post : List WaitStatus,
      (∀ st ∈ pre, st ≠ WaitStatus.exited CHILD_SYSTEM_ERROR ∧
        st ≠ WaitStatus.exited CHILD_EXIT_REQUEST) →
      supervise (pre ++ WaitStatus.exited CHILD_SYSTEM_ERROR :: post) pipes o = Shell.exits 1 ∧
      supervise (pre ++ WaitStatus.exited CHILD_EXIT_REQUEST :: post) pipes o = Shell.exits 0) ∧
    (∀ statuses : List WaitStatus,
      (∀ st ∈ statuses, st ≠ WaitStatus.exited CHILD_SYSTEM_ERROR ∧
        st ≠ WaitStatus.exited CHILD_EXIT_REQUEST) →
      supervise statuses pipes o =
        match check_child_message_and_close_pipes pipes o with
        | none => Shell.undefined
        | some o1 => Shell.continues o1) :=
  supervise_spec pipes o

set_option maxRecDepth 1000000 in
/-- C11 fails on the code: `cmd_parse_processes` never compares
`command_count` with `MAX_PARALLEL_COMMANDS`. The line of 101 groups
`a&a&...&a` (201 characters, no NUL and no newline) has 101 tokens between
the `&`; every pipe and fork succeeding, the launching loop reaches a call of
`cmd_process` with `command_count = 100`, which writes `pipes[100]` and
`children[100]` past the end of both arrays, so that the behaviour of
`cmd_parse_processes` and of `main` on that line is undefined. The line of
100 groups still fits: its loop ends with 100 workers. -/
theorem C11_overrun_with_101_groups :
    IsLine (groups_line 100) ∧ (groups_line 100).length = 201 ∧
    (tokens amp (groups_line 100)).length = 101 ∧
    launch_all (env_with ["/bin/a"]) (some ["/bin".toList]) (groups_line 100 ++ [NUL])
      = Launched.overrun ∧
    cmd_parse_processes (env_with ["/bin/a"]) exit0 WaitStatus.signaled
      ⟨groups_line 100 ++ [NUL], some ["/bin".toList], []⟩ = Shell.undefined ∧
    main_line (env_with ["/bin/a"]) exit0 WaitStatus.signaled
      ⟨groups_line 100 ++ ['\n', NUL], some ["/bin".toList], []⟩ = Shell.undefined ∧
    (tokens amp (groups_line 99)).length = 100 ∧
    (launch_all (env_with ["/bin/a"]) (some ["/bin".toList]) (groups_line 99 ++ [NUL])).list.map
      List.length = some 100 := by
  decide

end Wish
